import Mathlib

/-!
# Verification of the OmniSketch measurement library

Shallow embedding, in Lean 4, of the parts of the OmniSketch C++ source that
the specification claims refer to:

* `Util::DynamicIntX<T>::operator+`  (src/common/utils.h)     — `dynAdd`
* `Util::Mangle<T>`                  (src/common/utils.h)     — `mangle64`
* `CounterHierarchy::size`           (src/common/hierarchy.h) — `chSize`
* `FlowKey<L>::operator<, ==`        (src/common/flowkey.h)   — `flowKeyLtB`, `flowKeyEqB`
* `BloomFilter::insert / lookup`     (src/sketch/BloomFilter.h)
* `GndTruth` construction, heavy hitters, heavy changers (src/common/data.h)
* `CounterHierarchy` update / read path (src/common/hierarchy.h)

Machine integers of type `T` are modelled as unbounded `Int` (resp. `Nat`)
with explicit reductions `% 2 ^ w` exactly where the C++ code masks, shifts
or lets a multiplication wrap.  C++ `/` and `%` (truncation towards zero)
appear in the embedded code only on non-negative operands, where they agree
with Lean's Euclidean `/` and `%` on `Int`; this is noted at each use.
-/

namespace OmniSketch

/-! ## `Util::DynamicIntX<T>` (src/common/utils.h, lines 310-347)

A `DynamicIntX<T>` keeps a non-negative residue of `bits` bits inside a wider
integer type `T`.  `tbits` stands for `8 * sizeof(T)`.  The member
`operator+(T val)` returns the carry (in units of `2 ^ bits`) and stores the
low `bits` bits; it throws (`none` here) when `|val|` exceeds
`2 ^ (tbits - 2) - 1`.  In the source, `val >> bits` and `val & (constant-1)`
act on non-negative values, so they are division and remainder by
`2 ^ bits`; likewise every `/` and `%` below has non-negative operands when
the counter invariant `0 ≤ counter` holds, so Euclidean division coincides
with the C++ truncating division. -/

/-- The admissible magnitude `2 ^ (8 * sizeof(T) - 2) - 1` of one update
(`bound` in the source). -/
def dynBound (tbits : Nat) : Int := 2 ^ (tbits - 2) - 1

/-- `DynamicIntX<T>::operator+`: returns `some (overflow, new residue)`, or
`none` when the source throws `std::overflow_error`. -/
def dynAdd (tbits bits : Nat) (counter val : Int) : Option (Int × Int) :=
  if 0 ≤ val then
    if dynBound tbits < val then none
    else
      -- T overflow = val >> bits; T add = counter + (val & (constant - 1));
      -- counter = add % constant; overflow += add / constant;
      some (val / 2 ^ bits + (counter + val % 2 ^ bits) / 2 ^ bits,
            (counter + val % 2 ^ bits) % 2 ^ bits)
  else
    if val < -dynBound tbits then none
    else
      -- T negate = -val; T negate_overflow = negate >> bits;
      -- T add = constant + counter - (negate & (constant - 1));
      -- counter = add % constant;
      -- return -(negate_overflow + 1 - (add / constant));
      some (-((-val) / 2 ^ bits + 1 - (2 ^ bits + counter - (-val) % 2 ^ bits) / 2 ^ bits),
            (2 ^ bits + counter - (-val) % 2 ^ bits) % 2 ^ bits)

/-! ## `CounterHierarchy::size` (src/common/hierarchy.h, lines 418-432)

The source accumulates `no_cnt[i] * width_cnt[i]` plus `no_cnt[i]` bits over
all layers, shifts the bit total right by 3 (`tot >>= 3`), and then adds
`sizeof(hash_t) * no_hash[i]` bytes per non-top layer. -/

/-- `CounterHierarchy::size`.  `sizeofHash` stands for `sizeof(hash_t)`. -/
def chSize (noCnt widthCnt noHash : List Nat) (sizeofHash : Nat) : Nat :=
  noHash.foldl (fun tot h => tot + sizeofHash * h)
    (((noCnt.zip widthCnt).foldl (fun tot mw => tot + mw.1 * mw.2 + mw.1) 0) >>> 3)

/-! ## `Util::Mangle` (src/common/utils.h, lines 29-36)

`Mangle` is instantiated in the repository at `T = uint64_t`
(src/impl/hash.cpp, `AwareHash::AwareHash`).  On a little-endian host the
byte `i` of the in-memory representation of `key` is
`key / 2 ^ (8*i) % 2 ^ 8`.  The source sets `n = sizeof(T) >> 1` (= 4) and
executes `for (i = 0; i < n; ++i) std::swap(s[i], s[n-1-i]);`, then returns
`key * 2083697005` (reduced mod `2 ^ 64` by unsigned wrap-around). -/

/-- `MANGLE_MAGIC`. -/
def mangleMagic : Nat := 2083697005

/-- Little-endian byte `i` of a 64-bit value. -/
def byteAt (s i : Nat) : Nat := s / 2 ^ (8 * i) % 2 ^ 8

/-- The 8 bytes of the in-memory representation of a `uint64_t`. -/
def toBytes64 (s : Nat) : List Nat := (List.range 8).map (byteAt s)

/-- Reassemble a little-endian byte list into a value. -/
def fromBytes (bs : List Nat) : Nat := bs.foldr (fun b acc => b + 2 ^ 8 * acc) 0

/-- `std::swap(s[i], s[j])` on a byte list. -/
def swapAt (bs : List Nat) (i j : Nat) : List Nat :=
  (bs.set i (bs.getD j 0)).set j (bs.getD i 0)

/-- The loop `for (i = 0; i < n; ++i) std::swap(s[i], s[n-1-i]);` with
`n = sizeof(uint64_t) >> 1 = 4`. -/
def mangleSwapLoop (bs : List Nat) : List Nat :=
  (List.range 4).foldl (fun acc i => swapAt acc i (4 - 1 - i)) bs

/-- `Util::Mangle<uint64_t>`. -/
def mangle64 (key : Nat) : Nat :=
  fromBytes (mangleSwapLoop (toBytes64 key)) * mangleMagic % 2 ^ 64

/-- Full byte-reversal of a 64-bit value.  This is what the specification
asserts the mangling step performs; it is compared against the behaviour of
the source's `mangle64` above. -/
def byteReverse64 (s : Nat) : Nat := fromBytes (toBytes64 s).reverse

/-! ## `FlowKey<key_len>` (src/common/flowkey.h)

A flow key stores `key_len` bytes in an `int8_t` array.  A byte of the
in-memory representation is a value in `[0, 256)`; `operator<` and
`operator==` compare the bytes as **signed** 8-bit integers
(`int8_t`), position by position. -/

/-- The value of a raw byte read as an `int8_t`. -/
def int8OfByte (b : Nat) : Int := if b < 128 then (b : Int) else (b : Int) - 256

/-- `FlowKey::operator<` (flowkey.h, lines 320-330): scan the bytes in
order; return `true` at the first position where this key's `int8_t` is
smaller, `false` at the first position where it is greater, and `false`
when no position differs. -/
def flowKeyLtB : List Nat → List Nat → Bool
  | a :: as, b :: bs =>
    if int8OfByte a < int8OfByte b then true
    else if int8OfByte b < int8OfByte a then false
    else flowKeyLtB as bs
  | _, _ => false

/-- `FlowKey::operator==` (flowkey.h, lines 310-318): all bytes equal. -/
def flowKeyEqB : List Nat → List Nat → Bool
  | a :: as, b :: bs => if int8OfByte a = int8OfByte b then flowKeyEqB as bs else false
  | [], [] => true
  | _, _ => false

/-! ## `BloomFilter` (src/sketch/BloomFilter.h)

The filter keeps `nbits` bits (`arr`), `numHash` hash classes.  `insert`
sets the bit `hash_fns[i](key) % nbits` for every `i`; `lookup` is true iff
all those bits are set.  `κ` stands for `FlowKey<key_len>` and `hashFns`
for the array of `hash_t` instances. -/

structure BloomFilter (κ : Type) where
  nbits : Nat
  numHash : Nat
  hashFns : Nat → κ → Nat
  arr : Nat → Bool

section BloomDefs

variable {κ : Type}

/-- `BloomFilter::setBit`. -/
def bfSetBit (arr : Nat → Bool) (pos : Nat) : Nat → Bool :=
  fun p => if p = pos then true else arr p

/-- `BloomFilter::insert`. -/
def bfInsert (bf : BloomFilter κ) (k : κ) : BloomFilter κ :=
  { bf with
    arr := (List.range bf.numHash).foldl
      (fun a i => bfSetBit a (bf.hashFns i k % bf.nbits)) bf.arr }

/-- `BloomFilter::lookup`. -/
def bfLookup (bf : BloomFilter κ) (k : κ) : Bool :=
  (List.range bf.numHash).all fun i => bf.arr (bf.hashFns i k % bf.nbits)

/-- A sequence of `insert` calls. -/
def bfRun (bf : BloomFilter κ) (ks : List κ) : BloomFilter κ :=
  ks.foldl bfInsert bf

/-- Concrete Bloom filter used by the witness of C5. -/
def bfW : BloomFilter Nat := ⟨7, 2, fun i k => i + 3 * k, fun _ => false⟩

end BloomDefs

/-! ## `Data::GndTruth` (src/common/data.h)

The ground-truth container is a bidirectional map: a hash table from flow
key to value (the left view) together with a vector of `(value, key)` pairs
(the right view), kept sorted by value in descending order after each
construction, plus the running sum `tot_value` and the once-only guard
counter `called`.

We model the map as an association list in right-view order: the keys are
pairwise distinct, `left[k] += v` on a fresh key appends at the end of the
vector view, and `left[k] = v` on an existing key updates the entry in
place.  `my_map.right.sort(std::greater<T>())` sorts by value in descending
order with an algorithm the C++ library leaves unspecified on ties; the
embedding picks the stable `List.insertionSort`. -/

/-- `InLength` counts bytes, `InPacket` counts packets (data.h, enum
`CntMethod`). -/
inductive CntMethod where
  | inLength
  | inPacket
deriving DecidableEq

/-- One record: a flow key plus its length field (the timestamp plays no
role in any of the operations under study). -/
structure RecordM (κ : Type) where
  flowkey : κ
  length : Int

section GndTruthDefs

variable {κ : Type} [DecidableEq κ]

/-- Lookup in the left view (`my_map.left.count` / `my_map.left[k]`). -/
def findVal : List (κ × Int) → κ → Option Int
  | [], _ => none
  | (k', v) :: rest, k => if k = k' then some v else findVal rest k

/-- `my_map.left[k] += v`: update the entry in place, or append a fresh
`(k, v)` at the end of the vector view. -/
def addVal : List (κ × Int) → κ → Int → List (κ × Int)
  | [], k, v => [(k, v)]
  | (k', v') :: rest, k, v =>
      if k = k' then (k', v' + v) :: rest else (k', v') :: addVal rest k v

/-- The record loop of `GndTruth::getGroundTruth` (data.h, lines 896-942):
for each record add `length` (`InLength`) or `1` (`InPacket`) to the map
and to `tot_value`. -/
def buildGTFrom (acc : List (κ × Int) × Int) (recs : List (RecordM κ))
    (m : CntMethod) : List (κ × Int) × Int :=
  recs.foldl (fun acc r =>
    match m with
    | CntMethod.inLength => (addVal acc.1 r.flowkey r.length, acc.2 + r.length)
    | CntMethod.inPacket => (addVal acc.1 r.flowkey 1, acc.2 + 1)) acc

/-- Descending order on values: the sorting relation of
`my_map.right.sort(std::greater<T>())`. -/
def descR (p q : κ × Int) : Prop := q.2 ≤ p.2

instance : DecidableRel (descR (κ := κ)) :=
  fun p q => inferInstanceAs (Decidable (q.2 ≤ p.2))

instance : IsTotal (κ × Int) descR := ⟨fun p q => le_total q.2 p.2⟩

instance : IsTrans (κ × Int) descR := ⟨fun _ _ _ h1 h2 => le_trans h2 h1⟩

/-- `my_map.right.sort(std::greater<T>())`. -/
def sortDesc (l : List (κ × Int)) : List (κ × Int) := List.insertionSort descR l

/-- `GndTruth::getGroundTruth` on a fresh instance: build the map, then
sort the right view in descending value order. -/
def getGroundTruthFresh (recs : List (RecordM κ)) (m : CntMethod) :
    List (κ × Int) × Int :=
  (sortDesc (buildGTFrom ([], 0) recs m).1, (buildGTFrom ([], 0) recs m).2)

/-- The TopK branch of `GndTruth::getHeavyHitter(const GndTruth &, ...)`
(data.h, lines 950-964): copy the first `min(size, (size_t)threshold)`
entries of the summary's right view.  `k` stands for
`static_cast<size_t>(threshold)`, i.e. `⌊threshold⌋` for `threshold ≥ 1`. -/
def hhTopK (summary : List (κ × Int)) (k : Nat) : List (κ × Int) :=
  summary.take (min summary.length k)

/-- One step of `GndTruth::operator-=` (data.h, lines 866-882) on an entry
present in the accumulator: `my_map.left[k] = |my_map.left[k] - w|` updates
the entry in place. -/
def subStepVal : List (κ × Int) → κ → Int → List (κ × Int)
  | [], _, _ => []
  | (k', v') :: rest, k, w =>
      if k = k' then (k', |v' - w|) :: rest else (k', v') :: subStepVal rest k w

/-- The loop of `GndTruth::operator-=`: for each entry `(k, w)` of `other`,
either update the present entry to `|old - w|` (adjusting `tot_value` by
`-old + |old - w|`) or append `(k, w)` (adding `w` to `tot_value`). -/
def gndSubFold (acc : List (κ × Int) × Int) (other : List (κ × Int)) :
    List (κ × Int) × Int :=
  other.foldl (fun acc kv =>
    match findVal acc.1 kv.1 with
    | some v => (subStepVal acc.1 kv.1 kv.2, acc.2 - v + |v - kv.2|)
    | none => (acc.1 ++ [kv], acc.2 + kv.2)) acc

/-- `GndTruth::operator-=` including its final descending re-sort. -/
def gtSub (A : List (κ × Int)) (atot : Int) (B : List (κ × Int)) :
    List (κ × Int) × Int :=
  (sortDesc (gndSubFold (A, atot) B).1, (gndSubFold (A, atot) B).2)

/-- The TopK branch of `GndTruth::getHeavyChanger(const GndTruth &, const
GndTruth &, ...)` (data.h, lines 1026-1049) on a fresh instance: form the
absolute difference, truncate to the first `min(size, k)` entries of the
sorted right view, and recompute `tot_value` as the sum of the kept
entries. -/
def hcTopK (A : List (κ × Int)) (atot : Int) (B : List (κ × Int)) (k : Nat) :
    List (κ × Int) × Int :=
  ((gtSub A atot B).1.take (min (gtSub A atot B).1.length k),
   (((gtSub A atot B).1.take (min (gtSub A atot B).1.length k)).map Prod.snd).sum)

/-- The Percentile branch of `GndTruth::getHeavyChanger`: keep the flows
whose difference strictly exceeds `threshold * save`.  `thresOf` models the
`double`-to-`T` conversion `T thres = threshold * save`, a function of the
saved total only. -/
def hcPercentile (A : List (κ × Int)) (atot : Int) (B : List (κ × Int))
    (thresOf : Int → Int) : List (κ × Int) × Int :=
  (((gtSub A atot B).1.takeWhile fun p => thresOf (gtSub A atot B).2 < p.2),
   ((((gtSub A atot B).1.takeWhile fun p => thresOf (gtSub A atot B).2 < p.2)).map
      Prod.snd).sum)

/-- A `GndTruth` instance: map, total, and the `called` guard counter. -/
structure GT (κ : Type) where
  mp : List (κ × Int)
  tot : Int
  called : Int

/-- `GndTruth::getGroundTruth` with the `CHECK_CALLED_ONCE` guard (data.h,
lines 797-810): `called++`, and if `called > 1` the instance is returned
with only the counter advanced (a warning is logged, not modelled). -/
def gtGetGroundTruth (g : GT κ) (recs : List (RecordM κ)) (m : CntMethod) : GT κ :=
  if 1 < g.called + 1 then { g with called := g.called + 1 }
  else
    { mp := sortDesc (buildGTFrom (g.mp, g.tot) recs m).1,
      tot := (buildGTFrom (g.mp, g.tot) recs m).2,
      called := g.called + 1 }

/-- `GndTruth::getHeavyHitter(const GndTruth &, double, TopK)` with the
guard; `none` models the `std::invalid_argument` throw on
`threshold < 1.0`.  `threshK` is `⌊threshold⌋`. -/
def gtGetHeavyHitterTopK (g : GT κ) (summary : GT κ) (threshK : Nat) :
    Option (GT κ) :=
  if 1 < g.called + 1 then some { g with called := g.called + 1 }
  else if threshK < 1 then none
  else
    some { mp := g.mp ++ hhTopK summary.mp threshK,
           tot := g.tot + ((hhTopK summary.mp threshK).map Prod.snd).sum,
           called := g.called + 1 }

/-- `GndTruth::getHeavyChanger(const GndTruth &, const GndTruth &, double,
TopK)` with the guard. -/
def gtGetHeavyChangerTopK (g : GT κ) (s1 s2 : GT κ) (threshK : Nat) :
    Option (GT κ) :=
  if 1 < g.called + 1 then some { g with called := g.called + 1 }
  else if threshK < 1 then none
  else
    some { mp := (hcTopK s1.mp s1.tot s2.mp threshK).1,
           tot := (hcTopK s1.mp s1.tot s2.mp threshK).2,
           called := g.called + 1 }

/-- The ten records of the C9 scenario (flow keys and lengths from
test_data.cpp). -/
def recs9 : List (RecordM Nat) :=
  [⟨0x1F1F1, 1⟩, ⟨0x2F2F2, 2⟩, ⟨0x1F1F1, 4⟩, ⟨0x3F3F3, 8⟩, ⟨0x4F4F4, 16⟩,
   ⟨0x1F1F1, 32⟩, ⟨0x2F2F2, 64⟩, ⟨0x3F3F3, 128⟩, ⟨0x5F5F5, 256⟩, ⟨0x1F1F1, 512⟩]

/-! ### Heavy-changer symmetry (claim C3)

`getHeavyChanger(A, B, ...)` copies `A`, applies `operator-=(B)` (absolute
differences, missing keys contributing their value), re-sorts descending,
and truncates by the chosen policy.  The difference map is symmetric in
`A` and `B` as a key-to-value function, but its right-view order on tied
values depends on which argument was copied, so the TopK truncation can
keep different keys. -/

/-- The keys of the right view. -/
def keysOf (l : List (κ × Int)) : List κ := l.map Prod.fst

/-- The sum of the values of the right view. -/
def sumSnd (l : List (κ × Int)) : Int := (l.map Prod.snd).sum

/-- The pointwise effect of `operator-=` on one key: `|A[k] − B[k]|` when
both sides hold the key, the present value when only one does. -/
def combine : Option Int → Option Int → Option Int
  | some a, some b => some |a - b|
  | some a, none => some a
  | none, some b => some b
  | none, none => none

end GndTruthDefs

/-! ## `CounterHierarchy<no_layer, T, hash_t>` (src/common/hierarchy.h)

Layer `l` holds `no_cnt[l]` packed counters of `width_cnt[l]` bits plus one
status (overflow-witness) bit each; layers other than the top have
`no_hash[l]` hash functions into the next layer.  Updates are buffered in
the `lazy_update` map and in the exact shadow array `original_cnt`; a read
flushes the buffer layer by layer (`updateLayer`), then decodes from the
top down (`decodeLayer`), caching the decoded vector.

Embedding choices, each noted where it matters:
* `T` is modelled as unbounded `Int` with `tbits = 8 * sizeof(T)`;
* the per-layer update maps (`CarryOver`) are modelled as total functions
  `Nat → Int` applied at every index of the layer: an index absent from the
  C++ map carries delta 0, and adding 0 to a packed counter is a no-op with
  zero carry, so the counters, status bits and propagated carries agree;
* `double` is modelled as `ℚ` (every finite double is rational), and the
  sparse least-squares solver — whose result the source does not pin down
  beyond determinism — is a parameter `solve`, so every theorem quantifies
  over it;
* a thrown exception (`std::overflow_error`, `std::out_of_range`) is
  `none`. -/

/-- The architectural parameters of a CH: counters per layer, width per
layer, hash fan-out per non-top layer, `8 * sizeof(T)`, and the family
`hashFn layer j` of hash functions. -/
structure CHCfg where
  noCnt : List Nat
  widthCnt : List Nat
  noHash : List Nat
  tbits : Nat
  hashFn : Nat → Nat → Nat → Nat

/-- `no_layer`. -/
def CHCfg.nLayer (cfg : CHCfg) : Nat := cfg.noCnt.length

/-- `no_cnt[l]`. -/
def CHCfg.m (cfg : CHCfg) (l : Nat) : Nat := cfg.noCnt.getD l 0

/-- `width_cnt[l]`. -/
def CHCfg.w (cfg : CHCfg) (l : Nat) : Nat := cfg.widthCnt.getD l 0

/-- `no_hash[l]`. -/
def CHCfg.h (cfg : CHCfg) (l : Nat) : Nat := cfg.noHash.getD l 0

/-- The construction-time checks of the `CounterHierarchy` constructor
(hierarchy.h, lines 289-343) together with the `DynamicIntX` constructor
constraint `0 < width < 8*sizeof(T) - 1` on every layer width and the
trivial platform fact `8 ≤ 8 * sizeof(T)`. -/
def CHCfg.Ok (cfg : CHCfg) : Prop :=
  0 < cfg.noCnt.length
  ∧ cfg.widthCnt.length = cfg.noCnt.length
  ∧ cfg.noHash.length = cfg.noCnt.length - 1
  ∧ (∀ x ∈ cfg.noCnt, 0 < x)
  ∧ (∀ x ∈ cfg.widthCnt, 0 < x)
  ∧ (∀ x ∈ cfg.noHash, 0 < x)
  ∧ cfg.widthCnt.sum ≤ cfg.tbits
  ∧ (∀ x ∈ cfg.widthCnt, x < cfg.tbits - 1)
  ∧ 8 ≤ cfg.tbits

instance (cfg : CHCfg) : Decidable cfg.Ok := by
  unfold CHCfg.Ok
  infer_instance

/-- Pointwise update of a function, modelling assignment into an array. -/
def updFn {β : Type} (f : Nat → β) (i : Nat) (b : β) : Nat → β :=
  fun j => if j = i then b else f j

/-- The mutable state of a CH: packed-counter residues and status bits per
layer, the layer-0 shadow array `original_cnt`, the cached decoded vector
`decoded_cnt`, and the pending-update map `lazy_update` (with its
emptiness flag, since `getCnt` tests `lazy_update.empty()`). -/
structure CHState where
  cnt : Nat → Nat → Int
  status : Nat → Nat → Bool
  original : Nat → Int
  decoded : Nat → ℚ
  lazy : Nat → Int
  lazyNonempty : Bool

/-- The state after construction: everything zero-initialized. -/
def chInit : CHState :=
  ⟨fun _ _ => 0, fun _ _ => false, fun _ => 0, fun _ => 0, fun _ => 0, false⟩

/-- One index of `CounterHierarchy::updateLayer` (hierarchy.h, lines
214-238): apply the pending delta to the packed counter; on a nonzero
carry, set the status bit and either fail at the top layer
(`std::overflow_error`) or add the carry to each of the `no_hash[layer]`
hashed indices of the next layer's map. -/
def updateLayerStep (cfg : CHCfg) (layer : Nat) (upd : Nat → Int)
    (acc : Option ((Nat → Int) × (Nat → Bool) × (Nat → Int))) (idx : Nat) :
    Option ((Nat → Int) × (Nat → Bool) × (Nat → Int)) :=
  match acc with
  | none => none
  | some (c, s, ret) =>
    match dynAdd cfg.tbits (cfg.w layer) (c idx) (upd idx) with
    | none => none
    | some (ov, newCnt) =>
      if ov ≠ 0 then
        if layer = cfg.nLayer - 1 then none
        else
          some (updFn c idx newCnt, updFn s idx true,
            (List.range (cfg.h layer)).foldl
              (fun r j => updFn r (cfg.hashFn layer j idx % cfg.m (layer + 1))
                (r (cfg.hashFn layer j idx % cfg.m (layer + 1)) + ov)) ret)
      else some (updFn c idx newCnt, s, ret)

/-- `CounterHierarchy::updateLayer`: fold the step over the indices of the
layer (see the module comment on modelling the `CarryOver` map as a total
function). -/
def updateLayer (cfg : CHCfg) (layer : Nat) (cntL : Nat → Int)
    (statusL : Nat → Bool) (upd : Nat → Int) :
    Option ((Nat → Int) × (Nat → Bool) × (Nat → Int)) :=
  (List.range (cfg.m layer)).foldl (updateLayerStep cfg layer upd)
    (some (cntL, statusL, fun _ => 0))

/-- One layer of the flush loop of `getCnt` (hierarchy.h, lines 396-399):
`lazy_update = updateLayer(i, std::move(lazy_update))`. -/
def flushStep (cfg : CHCfg)
    (acc : Option ((Nat → Nat → Int) × (Nat → Nat → Bool) × (Nat → Int)))
    (layer : Nat) :
    Option ((Nat → Nat → Int) × (Nat → Nat → Bool) × (Nat → Int)) :=
  match acc with
  | none => none
  | some (cnt, status, upd) =>
    match updateLayer cfg layer (cnt layer) (status layer) upd with
    | none => none
    | some (c, s, ret) => some (updFn cnt layer c, updFn status layer s, ret)

/-- The whole flush: all layers from 0 up, then `lazy_update.clear()`. -/
def flushCH (cfg : CHCfg) (st : CHState) : Option CHState :=
  match (List.range cfg.nLayer).foldl (flushStep cfg)
      (some (st.cnt, st.status, st.lazy)) with
  | none => none
  | some (cnt, status, _) =>
      some { st with cnt := cnt, status := status,
                     lazy := fun _ => 0, lazyNonempty := false }

/-- `static_cast<T>` from `double`: truncation towards zero. -/
def truncQ (q : ℚ) : Int := if 0 ≤ q then ⌊q⌋ else ⌈q⌉

/-- The triplet list of `decodeLayer` (hierarchy.h, lines 261-269): one
entry `(hash_k(i) mod m_{layer+1}, i)` per hash function for every column
`i` whose status bit is set. -/
def chTriplets (cfg : CHCfg) (status : Nat → Nat → Bool) (layer : Nat) :
    List (Nat × Nat) :=
  (List.range (cfg.m layer)).flatMap fun i =>
    if status layer i then
      (List.range (cfg.h layer)).map fun j =>
        (cfg.hashFn layer j i % cfg.m (layer + 1), i)
    else []

/-- `CounterHierarchy::decodeLayer` (hierarchy.h, lines 240-286) with the
least-squares solve as the parameter `solve`: where the status bit is set,
round the solved quotient (`+ 0.5` then truncate), shift left by the layer
width and add the residue; otherwise take the residue alone. -/
def decodeLayer (cfg : CHCfg) (solve : List (Nat × Nat) → (Nat → ℚ) → Nat → ℚ)
    (cnt : Nat → Nat → Int) (status : Nat → Nat → Bool) (layer : Nat)
    (higher : Nat → ℚ) : Nat → ℚ :=
  fun i =>
    (if status layer i then
      ((truncQ (solve (chTriplets cfg status layer) higher i + 1 / 2)
          * 2 ^ cfg.w layer : Int) : ℚ)
    else 0) + ((cnt layer i : Int) : ℚ)

/-- The decode loop of `getCnt` (hierarchy.h, lines 401-408): start from
the top layer's counter values, then decode each lower layer in turn. -/
def decodeCH (cfg : CHCfg) (solve : List (Nat × Nat) → (Nat → ℚ) → Nat → ℚ)
    (cnt : Nat → Nat → Int) (status : Nat → Nat → Bool) : Nat → ℚ :=
  (List.range (cfg.nLayer - 1)).reverse.foldl
    (fun higher layer => decodeLayer cfg solve cnt status layer higher)
    (fun j => ((cnt (cfg.nLayer - 1) j : Int) : ℚ))

/-- `CounterHierarchy::updateCnt` (hierarchy.h, lines 374-385): bounds
check, then buffer the delta in `lazy_update` and add it to the shadow
`original_cnt`. -/
def chUpdateCnt (cfg : CHCfg) (st : CHState) (index : Nat) (val : Int) :
    Option CHState :=
  if cfg.m 0 ≤ index then none
  else some { st with
    lazy := updFn st.lazy index (st.lazy index + val),
    original := updFn st.original index (st.original index + val),
    lazyNonempty := true }

/-- `CounterHierarchy::getCnt` (hierarchy.h, lines 387-411): bounds check;
if updates are pending, flush and decode (caching the decoded vector);
return `static_cast<T>(decoded_cnt[index])` and the new state. -/
def chGetCnt (cfg : CHCfg) (solve : List (Nat × Nat) → (Nat → ℚ) → Nat → ℚ)
    (st : CHState) (index : Nat) : Option (Int × CHState) :=
  if cfg.m 0 ≤ index then none
  else if st.lazyNonempty then
    match flushCH cfg st with
    | none => none
    | some st1 =>
        some (truncQ (decodeCH cfg solve st1.cnt st1.status index),
          { st1 with decoded := decodeCH cfg solve st1.cnt st1.status })
  else some (truncQ (st.decoded index), st)

/-- A trace operation on a CH. -/
inductive CHOp where
  | update (index : Nat) (val : Int)
  | read (index : Nat)

/-- One trace step (a read's return value is discarded). -/
def chStep (cfg : CHCfg) (solve : List (Nat × Nat) → (Nat → ℚ) → Nat → ℚ)
    (st : CHState) : CHOp → Option CHState
  | CHOp.update i v => chUpdateCnt cfg st i v
  | CHOp.read i => (chGetCnt cfg solve st i).map Prod.snd

/-- Run a trace of operations. -/
def chRun (cfg : CHCfg) (solve : List (Nat × Nat) → (Nat → ℚ) → Nat → ℚ) :
    CHState → List CHOp → Option CHState
  | st, [] => some st
  | st, op :: rest =>
      match chStep cfg solve st op with
      | none => none
      | some st1 => chRun cfg solve st1 rest

/-- The pending layer-0 flush is carry-free: every packed counter of
layer 0 absorbs its pending delta with carry-out zero. -/
def l0FlushOk (cfg : CHCfg) (st : CHState) : Bool :=
  (List.range (cfg.m 0)).all fun i =>
    match dynAdd cfg.tbits (cfg.w 0) (st.cnt 0 i) (st.lazy i) with
    | some p => p.1 == 0
    | none => false

/-- The hypothesis of claim C1, stated operationally on the trace: at every
flush a read triggers, no layer-0 counter produces a nonzero carry (and
every step stays in range and succeeds). -/
def chL0CarryFree (cfg : CHCfg) (solve : List (Nat × Nat) → (Nat → ℚ) → Nat → ℚ) :
    CHState → List CHOp → Bool
  | _, [] => true
  | st, CHOp.update i v :: rest =>
      match chUpdateCnt cfg st i v with
      | none => false
      | some st1 => chL0CarryFree cfg solve st1 rest
  | st, CHOp.read i :: rest =>
      (if st.lazyNonempty then l0FlushOk cfg st else true)
      && match chStep cfg solve st (CHOp.read i) with
         | none => false
         | some st1 => chL0CarryFree cfg solve st1 rest

/-- The plain sum of the deltas a trace applies to one index — what
`getOriginalCnt` is meant to report. -/
def updSum (index : Nat) : List CHOp → Int
  | [] => 0
  | CHOp.update j v :: rest => (if j = index then v else 0) + updSum index rest
  | CHOp.read _ :: rest => updSum index rest

/-- The run invariant of a carry-free trace: the layer-0 residues and the
pending deltas add up to the shadow counters, residues are in range, upper
layers and status bits are untouched, and with no pending update the
cached decode agrees with the shadow. -/
def chInv (cfg : CHCfg) (st : CHState) : Prop :=
  (∀ i, i < cfg.m 0 → st.original i = st.cnt 0 i + st.lazy i)
  ∧ (∀ i, 0 ≤ st.cnt 0 i ∧ st.cnt 0 i < 2 ^ cfg.w 0)
  ∧ (∀ i, ¬ i < cfg.m 0 → st.cnt 0 i = 0 ∧ st.lazy i = 0 ∧ st.original i = 0)
  ∧ (∀ l, 1 ≤ l → ∀ j, st.cnt l j = 0)
  ∧ (∀ l j, st.status l j = false)
  ∧ (st.lazyNonempty = false → (∀ i, st.lazy i = 0)
      ∧ ∀ i, i < cfg.m 0 → truncQ (st.decoded i) = st.original i)

/-- Concrete two-layer configuration for the witness of C1: layer sizes
`(2, 2)`, widths `(4, 4)`, one hash per layer, identity hash,
`T = int32_t`. -/
def cfgW : CHCfg := ⟨[2, 2], [4, 4], [1], 32, fun _ _ x => x⟩

/-- Trivial deterministic solver for the witness of C1. -/
def solveW : List (Nat × Nat) → (Nat → ℚ) → Nat → ℚ := fun _ _ _ => 0

/-- Witness trace for C1: two buffered updates, a read that flushes them,
a further update, and a final read. -/
def opsW : List CHOp :=
  [CHOp.update 0 5, CHOp.update 1 2, CHOp.read 0, CHOp.update 0 3]

/-! ## Theorems -/

/-! ### Theorems for claims C2, C7, C8 -/

/-- Claim C2: adding a non-negative value `D ≤ 2^(8*sizeof(T)-2) - 1` to a
`DynamicIntX<T>` of width `w` holding residue `r` returns the carry
`⌊D / 2^w⌋ + ⌊(r + D mod 2^w) / 2^w⌋` and leaves residue `(r + D) mod 2^w`;
in particular for `w = 4` starting at `0`, `add(0x7F)` returns `7` leaving
residue `0xF`, and a subsequent `add(0x235)` returns `0x24` leaving
residue `0x4`. -/
theorem dynAdd_nonneg_formula (tbits w : Nat) (r D : Int)
    (hr0 : 0 ≤ r) (hrw : r < 2 ^ w) (hD0 : 0 ≤ D) (hDb : D ≤ dynBound tbits) :
    dynAdd tbits w r D
      = some (D / 2 ^ w + (r + D % 2 ^ w) / 2 ^ w, (r + D) % 2 ^ w)
    ∧ dynAdd 32 4 0 0x7F = some (7, 0xF)
    ∧ dynAdd 32 4 0xF 0x235 = some (0x24, 0x4) := by
  refine ⟨?_, by decide, by decide⟩
  have hmod : (r + D % 2 ^ w) % 2 ^ w = (r + D) % 2 ^ w := by
    conv_lhs => rw [Int.add_emod]
    conv_rhs => rw [Int.add_emod]
    rw [Int.emod_emod_of_dvd _ dvd_rfl]
  rw [dynAdd, if_pos hD0, if_neg (not_lt.mpr hDb), hmod]

/-- Witness for C2 at `tbits = 32`, `w = 4`, `r = 0`, `D = 0x7F`. -/
theorem dynAdd_nonneg_formula_witness :
    (0 ≤ (0 : Int) ∧ (0 : Int) < 2 ^ 4 ∧ 0 ≤ (0x7F : Int) ∧ (0x7F : Int) ≤ dynBound 32)
    ∧ (dynAdd 32 4 0 0x7F
        = some ((0x7F : Int) / 2 ^ 4 + (0 + 0x7F % 2 ^ 4) / 2 ^ 4, (0 + 0x7F) % 2 ^ 4)
      ∧ dynAdd 32 4 0 0x7F = some (7, 0xF)
      ∧ dynAdd 32 4 0xF 0x235 = some (0x24, 0x4)) :=
  ⟨by decide,
   dynAdd_nonneg_formula 32 4 0 0x7F (by decide) (by decide) (by decide) (by decide)⟩

/-- Claim C7 (counterexample): for a single-layer hierarchy with one counter
of width 1 the bit total is `1 * (1 + 1) = 2` bits.  Rounding up to whole
bytes, as the claim states, would give 1 byte, but `size()` shifts the bit
count right by 3 and reports 0 bytes. -/
theorem chSize_not_rounded_up :
    chSize [1] [1] [] 8 ≠ (1 * (1 + 1) + 7) / 8 + 8 * 0 := by decide

/-- Claim C7 (amended): `size()` returns the sum over layers of
`m_i * (w_i + 1)` bits rounded **down** (truncated) to whole bytes, plus
`sizeof(hash_t) * Σ h_i` bytes for the hash vectors. -/
theorem chSize_eq_floor_bytes (noCnt widthCnt noHash : List Nat) (sizeofHash : Nat) :
    chSize noCnt widthCnt noHash sizeofHash
      = ((noCnt.zip widthCnt).map (fun mw => mw.1 * (mw.2 + 1))).sum / 8
        + sizeofHash * noHash.sum := by
  have h1 : ∀ (l : List (Nat × Nat)) (a : Nat),
      l.foldl (fun tot mw => tot + mw.1 * mw.2 + mw.1) a
        = a + (l.map (fun mw => mw.1 * (mw.2 + 1))).sum := by
    intro l
    induction l with
    | nil => intro a; simp
    | cons x xs ih =>
        intro a
        simp only [List.foldl_cons, List.map_cons, List.sum_cons, ih]
        have : x.1 * (x.2 + 1) = x.1 * x.2 + x.1 := by ring
        omega
  have h2 : ∀ (l : List Nat) (a : Nat),
      l.foldl (fun tot h => tot + sizeofHash * h) a = a + sizeofHash * l.sum := by
    intro l
    induction l with
    | nil => intro a; simp
    | cons x xs ih =>
        intro a
        simp only [List.foldl_cons, List.sum_cons, ih]
        have : sizeofHash * (x + xs.sum) = sizeofHash * x + sizeofHash * xs.sum := by ring
        omega
  rw [chSize, h2, h1, Nat.shiftRight_eq_div_pow]
  omega

/-- The byte-swapping loop of `Mangle` swaps each of the pairs
`(0,3), (1,2), (2,1), (3,0)` once, i.e. swaps every pair twice, and is
therefore the identity on the byte array. -/
theorem mangleSwapLoop_toBytes (s : Nat) :
    mangleSwapLoop (toBytes64 s) = toBytes64 s := rfl

/-- Reassembling the 8 extracted bytes gives the value reduced mod `2^64`. -/
theorem fromBytes_toBytes64 (s : Nat) : fromBytes (toBytes64 s) = s % 2 ^ 64 := by
  show byteAt s 0 + 2 ^ 8 * (byteAt s 1 + 2 ^ 8 * (byteAt s 2 + 2 ^ 8 * (byteAt s 3 +
      2 ^ 8 * (byteAt s 4 + 2 ^ 8 * (byteAt s 5 + 2 ^ 8 * (byteAt s 6 + 2 ^ 8 *
      (byteAt s 7 + 2 ^ 8 * 0))))))) = s % 2 ^ 64
  simp only [byteAt]
  omega

/-- Claim C8 (counterexample): at seed `1`, `Mangle` does not return the
byte-reversal of the seed times `2083697005`: the byte-reversal of `1` is
`2^56`, yet `Mangle(1) = 2083697005 mod 2^64`. -/
theorem mangle64_ne_byteReverse_mul :
    mangle64 1 ≠ byteReverse64 1 * mangleMagic % 2 ^ 64 := by decide

/-- Claim C8 (amended): the byte-swapping loop of `Mangle` has no net effect
(each byte pair is swapped twice), so for every seed `s`,
`Mangle(s) = s * 2083697005 (mod 2^(8*sizeof(T)))` at the instantiation
`T = uint64_t` used by the hash family. -/
theorem mangle64_eq_mul_magic (s : Nat) :
    mangle64 s = s * mangleMagic % 2 ^ 64 := by
  rw [mangle64, mangleSwapLoop_toBytes, fromBytes_toBytes64]
  conv_rhs => rw [Nat.mul_mod, Nat.mod_eq_of_lt (show mangleMagic < 2 ^ 64 by decide)]

theorem int8OfByte_inj {a b : Nat} (ha : a < 256) (hb : b < 256)
    (h : int8OfByte a = int8OfByte b) : a = b := by
  unfold int8OfByte at h
  split at h <;> split at h <;> omega

theorem flowKeyLt_first_diff : ∀ (a b : List Nat), a.length = b.length →
    (∀ x ∈ a, x < 256) → (∀ x ∈ b, x < 256) →
    ∀ i, i < a.length → (∀ j, j < i → a.getD j 0 = b.getD j 0) →
    a.getD i 0 ≠ b.getD i 0 →
    (flowKeyLtB a b = true ↔ int8OfByte (a.getD i 0) < int8OfByte (b.getD i 0))
  | [], b, hlen, _, _, i, hi, _, _ => absurd hi (by simp)
  | x :: as, [], hlen, _, _, _, _, _, _ => by simp at hlen
  | x :: as, y :: bs, hlen, ha, hb, i, hi, hpre, hdiff => by
    match i with
    | 0 =>
      simp only [List.getD_cons_zero] at hdiff ⊢
      have hx : x < 256 := ha x (by simp)
      have hy : y < 256 := hb y (by simp)
      rw [flowKeyLtB]
      rcases lt_trichotomy (int8OfByte x) (int8OfByte y) with h | h | h
      · rw [if_pos h]; simpa using h
      · exact absurd (int8OfByte_inj hx hy h) hdiff
      · rw [if_neg (by omega), if_pos h]
        constructor
        · intro hc; exact absurd hc (by simp)
        · intro hc; omega
    | i + 1 =>
      have hxy : x = y := by
        have := hpre 0 (by omega)
        simpa using this
      have h8 : int8OfByte x = int8OfByte y := by rw [hxy]
      rw [flowKeyLtB, if_neg (by omega), if_neg (by omega)]
      simp only [List.getD_cons_succ] at hdiff ⊢
      exact flowKeyLt_first_diff as bs (by simpa using hlen)
        (fun z hz => ha z (by simp [hz])) (fun z hz => hb z (by simp [hz]))
        i (by simpa using hi)
        (fun j hj => by simpa using hpre (j + 1) (by omega)) hdiff

theorem flowKeyEq_iff : ∀ (a b : List Nat), a.length = b.length →
    (∀ x ∈ a, x < 256) → (∀ x ∈ b, x < 256) →
    (flowKeyEqB a b = true ↔ a = b)
  | [], [], _, _, _ => by simp [flowKeyEqB]
  | x :: as, [], hlen, _, _ => by simp at hlen
  | [], y :: bs, hlen, _, _ => by simp at hlen
  | x :: as, y :: bs, hlen, ha, hb => by
    have hx : x < 256 := ha x (by simp)
    have hy : y < 256 := hb y (by simp)
    rw [flowKeyEqB]
    by_cases h : int8OfByte x = int8OfByte y
    · have hxy : x = y := int8OfByte_inj hx hy h
      rw [if_pos h]
      have ih := flowKeyEq_iff as bs (by simpa using hlen)
        (fun z hz => ha z (by simp [hz])) (fun z hz => hb z (by simp [hz]))
      simp [hxy, ih]
    · rw [if_neg h]
      have hxy : x ≠ y := fun hc => h (by rw [hc])
      simp [hxy]

theorem flowKeyLt_flip : ∀ (a b : List Nat), a.length = b.length →
    (∀ x ∈ a, x < 256) → (∀ x ∈ b, x < 256) →
    flowKeyLtB b a = (!flowKeyLtB a b && !flowKeyEqB a b)
  | [], [], _, _, _ => by simp [flowKeyLtB, flowKeyEqB]
  | x :: as, [], hlen, _, _ => by simp at hlen
  | [], y :: bs, hlen, _, _ => by simp at hlen
  | x :: as, y :: bs, hlen, ha, hb => by
    rcases lt_trichotomy (int8OfByte x) (int8OfByte y) with h | h | h
    · have h1 : ¬ int8OfByte y < int8OfByte x := by omega
      have h2 : ¬ int8OfByte x = int8OfByte y := by omega
      simp [flowKeyLtB, flowKeyEqB, h, h1, h2]
    · have h1 : ¬ int8OfByte x < int8OfByte y := by omega
      have h2 : ¬ int8OfByte y < int8OfByte x := by omega
      show (if int8OfByte y < int8OfByte x then true
            else if int8OfByte x < int8OfByte y then false else flowKeyLtB bs as)
          = (!(if int8OfByte x < int8OfByte y then true
               else if int8OfByte y < int8OfByte x then false else flowKeyLtB as bs)
             && !(if int8OfByte x = int8OfByte y then flowKeyEqB as bs else false))
      rw [if_neg h2, if_neg h1, if_neg h1, if_neg h2, if_pos h]
      exact flowKeyLt_flip as bs (by simpa using hlen)
        (fun z hz => ha z (by simp [hz])) (fun z hz => hb z (by simp [hz]))
    · have h1 : ¬ int8OfByte x < int8OfByte y := by omega
      have h2 : ¬ int8OfByte x = int8OfByte y := by omega
      simp [flowKeyLtB, flowKeyEqB, h, h1, h2]

/-- Claim C10: `FlowKey<L>::operator<` orders keys lexicographically over
their `L` bytes interpreted as signed 8-bit integers: at the first byte
position where the keys differ, `a < b` holds iff `a`'s byte as an `int8_t`
is smaller; `operator==` is byte equality; a key whose first differing byte
is in `0x80..0xFF` compares smaller than one whose byte there is in
`0x00..0x7F`; and for every pair of keys exactly one of `a < b`, `a == b`,
`b < a` holds (expressed by the last conjunct together with the second). -/
theorem flowKey_signed_lex_order (a b : List Nat) (hlen : a.length = b.length)
    (ha : ∀ x ∈ a, x < 256) (hb : ∀ x ∈ b, x < 256) :
    (∀ i, i < a.length → (∀ j, j < i → a.getD j 0 = b.getD j 0) →
        a.getD i 0 ≠ b.getD i 0 →
        (flowKeyLtB a b = true ↔ int8OfByte (a.getD i 0) < int8OfByte (b.getD i 0)))
    ∧ (flowKeyEqB a b = true ↔ a = b)
    ∧ (∀ i, i < a.length → (∀ j, j < i → a.getD j 0 = b.getD j 0) →
        128 ≤ a.getD i 0 → b.getD i 0 < 128 → flowKeyLtB a b = true)
    ∧ flowKeyLtB b a = (!flowKeyLtB a b && !flowKeyEqB a b) := by
  refine ⟨fun i hi hpre hdiff =>
    flowKeyLt_first_diff a b hlen ha hb i hi hpre hdiff,
    flowKeyEq_iff a b hlen ha hb, fun i hi hpre hbig hsmall => ?_,
    flowKeyLt_flip a b hlen ha hb⟩
  have hia : a.getD i 0 < 256 := by
    have hmem : a.getD i 0 ∈ a := by
      rw [List.getD_eq_getElem a 0 (show i < a.length from hi)]
      exact List.getElem_mem _
    exact ha _ hmem
  have hdiff : a.getD i 0 ≠ b.getD i 0 := by omega
  rw [flowKeyLt_first_diff a b hlen ha hb i hi hpre hdiff]
  unfold int8OfByte
  rw [if_neg (by omega), if_pos (by omega)]
  omega

/-- Witness for C10 at `a = [0x80, 0x01]`, `b = [0x00, 0x05]`. -/
theorem flowKey_signed_lex_order_witness :
    (([0x80, 0x01] : List Nat).length = ([0x00, 0x05] : List Nat).length
      ∧ (∀ x ∈ ([0x80, 0x01] : List Nat), x < 256)
      ∧ (∀ x ∈ ([0x00, 0x05] : List Nat), x < 256))
    ∧ ((∀ i, i < ([0x80, 0x01] : List Nat).length →
          (∀ j, j < i → ([0x80, 0x01] : List Nat).getD j 0 = ([0x00, 0x05] : List Nat).getD j 0) →
          ([0x80, 0x01] : List Nat).getD i 0 ≠ ([0x00, 0x05] : List Nat).getD i 0 →
          (flowKeyLtB [0x80, 0x01] [0x00, 0x05] = true ↔
            int8OfByte (([0x80, 0x01] : List Nat).getD i 0)
              < int8OfByte (([0x00, 0x05] : List Nat).getD i 0)))
      ∧ (flowKeyEqB [0x80, 0x01] [0x00, 0x05] = true ↔ ([0x80, 0x01] : List Nat) = [0x00, 0x05])
      ∧ (∀ i, i < ([0x80, 0x01] : List Nat).length →
          (∀ j, j < i → ([0x80, 0x01] : List Nat).getD j 0 = ([0x00, 0x05] : List Nat).getD j 0) →
          128 ≤ ([0x80, 0x01] : List Nat).getD i 0 → ([0x00, 0x05] : List Nat).getD i 0 < 128 →
          flowKeyLtB [0x80, 0x01] [0x00, 0x05] = true)
      ∧ flowKeyLtB [0x00, 0x05] [0x80, 0x01]
          = (!flowKeyLtB [0x80, 0x01] [0x00, 0x05] && !flowKeyEqB [0x80, 0x01] [0x00, 0x05])) :=
  ⟨⟨by decide, by decide, by decide⟩,
   flowKey_signed_lex_order [0x80, 0x01] [0x00, 0x05] (by decide) (by decide) (by decide)⟩

section BloomThms

variable {κ : Type}

theorem bfSetBit_mono {arr : Nat → Bool} {p : Nat} (q : Nat) (h : arr p = true) :
    bfSetBit arr q p = true := by
  unfold bfSetBit
  split <;> simp [h]

theorem bfFold_mono (f : Nat → Nat) :
    ∀ (l : List Nat) (arr : Nat → Bool) (p : Nat), arr p = true →
      (l.foldl (fun a i => bfSetBit a (f i)) arr) p = true
  | [], arr, p, h => h
  | i :: l, arr, p, h =>
      bfFold_mono f l (bfSetBit arr (f i)) p (bfSetBit_mono (f i) h)

theorem bfFold_sets (f : Nat → Nat) :
    ∀ (l : List Nat) (arr : Nat → Bool) (i : Nat), i ∈ l →
      (l.foldl (fun a j => bfSetBit a (f j)) arr) (f i) = true
  | [], _, _, h => absurd h (by simp)
  | j :: l, arr, i, h => by
      rcases List.mem_cons.mp h with hij | hmem
      · subst hij
        refine bfFold_mono f l _ _ ?_
        simp [bfSetBit]
      · exact bfFold_sets f l _ i hmem

theorem bfInsert_nbits (bf : BloomFilter κ) (k : κ) : (bfInsert bf k).nbits = bf.nbits := rfl

theorem bfInsert_numHash (bf : BloomFilter κ) (k : κ) :
    (bfInsert bf k).numHash = bf.numHash := rfl

theorem bfInsert_hashFns (bf : BloomFilter κ) (k : κ) :
    (bfInsert bf k).hashFns = bf.hashFns := rfl

theorem bfRun_nbits : ∀ (ks : List κ) (bf : BloomFilter κ), (bfRun bf ks).nbits = bf.nbits
  | [], _ => rfl
  | k :: ks, bf => bfRun_nbits ks (bfInsert bf k)

theorem bfRun_numHash : ∀ (ks : List κ) (bf : BloomFilter κ),
    (bfRun bf ks).numHash = bf.numHash
  | [], _ => rfl
  | k :: ks, bf => bfRun_numHash ks (bfInsert bf k)

theorem bfRun_hashFns : ∀ (ks : List κ) (bf : BloomFilter κ),
    (bfRun bf ks).hashFns = bf.hashFns
  | [], _ => rfl
  | k :: ks, bf => bfRun_hashFns ks (bfInsert bf k)

theorem bfRun_arr_mono : ∀ (ks : List κ) (bf : BloomFilter κ) (p : Nat),
    bf.arr p = true → (bfRun bf ks).arr p = true
  | [], _, _, h => h
  | k :: ks, bf, p, h => by
      refine bfRun_arr_mono ks (bfInsert bf k) p ?_
      exact bfFold_mono _ _ _ _ h

/-- Claim C5: a Bloom filter has no false negatives: after any sequence of
`insert` calls containing the key `k` (and no intervening `clear`),
`lookup(k)` returns `true`. -/
theorem bloom_no_false_negative (bf : BloomFilter κ) (ks : List κ) (k : κ)
    (hk : k ∈ ks) : bfLookup (bfRun bf ks) k = true := by
  induction ks generalizing bf with
  | nil => exact absurd hk (by simp)
  | cons k' ks ih =>
      rcases List.mem_cons.mp hk with hkk | hmem
      · subst hkk
        have hrun : bfRun bf (k :: ks) = bfRun (bfInsert bf k) ks := rfl
        rw [hrun, bfLookup, List.all_eq_true]
        intro i hi
        rw [bfRun_hashFns, bfRun_nbits, bfInsert_hashFns, bfInsert_nbits]
        refine bfRun_arr_mono ks (bfInsert bf k) _ ?_
        rw [bfRun_numHash, bfInsert_numHash] at hi
        exact bfFold_sets (fun j => bf.hashFns j k % bf.nbits)
          (List.range bf.numHash) bf.arr i hi
      · exact ih (bfInsert bf k') hmem

/-- Witness for C5 at a 7-bit filter with two hash functions and the
insertion sequence `[3, 5]`. -/
theorem bloom_no_false_negative_witness :
    (5 : Nat) ∈ ([3, 5] : List Nat) ∧ bfLookup (bfRun bfW [3, 5]) 5 = true :=
  ⟨by decide, bloom_no_false_negative bfW [3, 5] 5 (by decide)⟩

end BloomThms

section GndTruthThms

variable {κ : Type} [DecidableEq κ]

/-! ### Theorems for claims C6, C9, C4 -/

/-- Claim C6: calling a constructor-like `getXXX` operation on a `GndTruth`
instance that has already had one such call is a no-op and not a failure:
the key-to-value mapping and the total value are left unchanged (only the
internal call counter advances, and a warning is logged). -/
theorem gt_second_call_noop (g : GT κ) (recs : List (RecordM κ)) (m : CntMethod)
    (summary s1 s2 : GT κ) (threshK : Nat) (hg : 1 ≤ g.called) :
    gtGetGroundTruth g recs m = { g with called := g.called + 1 }
    ∧ gtGetHeavyHitterTopK g summary threshK = some { g with called := g.called + 1 }
    ∧ gtGetHeavyChangerTopK g s1 s2 threshK = some { g with called := g.called + 1 } := by
  unfold gtGetGroundTruth gtGetHeavyHitterTopK gtGetHeavyChangerTopK
  rw [if_pos (show (1 : Int) < g.called + 1 by omega),
    if_pos (show (1 : Int) < g.called + 1 by omega),
    if_pos (show (1 : Int) < g.called + 1 by omega)]
  exact ⟨rfl, rfl, rfl⟩

/-- Witness for C6 on an instance with `called = 1`. -/
theorem gt_second_call_noop_witness :
    (1 : Int) ≤ (GT.mk [((0 : Nat), (5 : Int))] 5 1).called
    ∧ (gtGetGroundTruth (GT.mk [((0 : Nat), (5 : Int))] 5 1) [] CntMethod.inPacket
         = GT.mk [((0 : Nat), (5 : Int))] 5 2
      ∧ gtGetHeavyHitterTopK (GT.mk [((0 : Nat), (5 : Int))] 5 1) (GT.mk [] 0 0) 1
          = some (GT.mk [((0 : Nat), (5 : Int))] 5 2)
      ∧ gtGetHeavyChangerTopK (GT.mk [((0 : Nat), (5 : Int))] 5 1)
          (GT.mk [] 0 0) (GT.mk [] 0 0) 1
          = some (GT.mk [((0 : Nat), (5 : Int))] 5 2)) :=
  ⟨by decide,
   gt_second_call_noop (GT.mk [((0 : Nat), (5 : Int))] 5 1) [] CntMethod.inPacket
     (GT.mk [] 0 0) (GT.mk [] 0 0) (GT.mk [] 0 0) 1 (by decide)⟩

/-- Claim C9 (counterexample): on the ten records the byte-counting ground
truth does give `totalValue() = 1023`, but the flow `0x1F1F1` accumulates
`1 + 4 + 32 + 512 = 549`, not `545`, so the claim as stated is false. -/
theorem gndTruth_scenario_not_545 :
    ¬ ((getGroundTruthFresh recs9 CntMethod.inLength).2 = 1023
      ∧ (getGroundTruthFresh recs9 CntMethod.inLength).1.head?
          = some (0x1F1F1, 545)) := by decide

/-- Claim C9 (amended): the byte-counting ground truth of the ten records
has `totalValue() = 1023` and its descending-sorted right view begins with
flow key `0x1F1F1` carrying value `549`. -/
theorem gndTruth_scenario_549 :
    (getGroundTruthFresh recs9 CntMethod.inLength).2 = 1023
    ∧ (getGroundTruthFresh recs9 CntMethod.inLength).1.head?
        = some (0x1F1F1, 549) := by decide

/-- Claim C4: on a flow summary with `F` flows (right view sorted in
descending value order, as construction guarantees) and a TopK threshold
with `⌊threshold⌋ = k ≥ 1`, `getHeavyHitter` keeps exactly `min(k, F)`
entries, and every kept value is at least every excluded flow's value. -/
theorem hhTopK_spec (s : List (κ × Int)) (k : Nat) (hk : 1 ≤ k)
    (hs : List.Sorted descR s) :
    (hhTopK s k).length = min k s.length
    ∧ ∀ p ∈ hhTopK s k, ∀ q ∈ s.drop (min s.length k), q.2 ≤ p.2 := by
  constructor
  · rw [hhTopK, List.length_take]
    omega
  · intro p hp q hq
    have hpw : List.Pairwise descR (s.take (min s.length k) ++ s.drop (min s.length k)) := by
      rw [List.take_append_drop]
      exact hs
    rcases List.pairwise_append.mp hpw with ⟨_, _, hcross⟩
    exact hcross p hp q hq

/-- Witness for C4 on the summary `[(0,9),(1,5),(2,3)]` with `k = 2`. -/
theorem hhTopK_spec_witness :
    (1 ≤ 2 ∧ List.Sorted descR [((0 : Nat), (9 : Int)), (1, 5), (2, 3)])
    ∧ ((hhTopK [((0 : Nat), (9 : Int)), (1, 5), (2, 3)] 2).length
        = min 2 ([((0 : Nat), (9 : Int)), (1, 5), (2, 3)] : List (Nat × Int)).length
      ∧ ∀ p ∈ hhTopK [((0 : Nat), (9 : Int)), (1, 5), (2, 3)] 2,
          ∀ q ∈ ([((0 : Nat), (9 : Int)), (1, 5), (2, 3)] : List (Nat × Int)).drop
            (min ([((0 : Nat), (9 : Int)), (1, 5), (2, 3)] : List (Nat × Int)).length 2),
          q.2 ≤ p.2) :=
  ⟨⟨by decide, by decide⟩,
   hhTopK_spec [((0 : Nat), (9 : Int)), (1, 5), (2, 3)] 2 (by decide) (by decide)⟩

theorem combine_none_right (x : Option Int) : combine x none = x := by
  cases x <;> rfl

theorem combine_comm (x y : Option Int) : combine x y = combine y x := by
  cases x <;> cases y <;> simp [combine, abs_sub_comm]

theorem findVal_eq_none {l : List (κ × Int)} {k : κ} :
    findVal l k = none ↔ k ∉ keysOf l := by
  induction l with
  | nil => simp [findVal, keysOf]
  | cons kv rest ih =>
      rcases kv with ⟨k', v⟩
      by_cases h : k = k'
      · subst h
        simp [findVal, keysOf]
      · simp only [findVal, if_neg h, keysOf, List.map_cons, List.mem_cons]
        simp only [keysOf] at ih
        simp [ih, h]

theorem keysOf_subStepVal (l : List (κ × Int)) (k : κ) (w : Int) :
    keysOf (subStepVal l k w) = keysOf l := by
  induction l with
  | nil => rfl
  | cons kv rest ih =>
      rcases kv with ⟨k', v'⟩
      by_cases h : k = k' <;> simp [subStepVal, keysOf, h] at ih ⊢
      exact ih

theorem findVal_subStepVal_self {l : List (κ × Int)} {k : κ} {v : Int} (w : Int)
    (h : findVal l k = some v) :
    findVal (subStepVal l k w) k = some |v - w| := by
  induction l with
  | nil => simp [findVal] at h
  | cons kv rest ih =>
      rcases kv with ⟨k', v'⟩
      by_cases hk : k = k'
      · rw [findVal, if_pos hk] at h
        rw [subStepVal, if_pos hk, findVal, if_pos hk]
        simp_all
      · rw [findVal, if_neg hk] at h
        rw [subStepVal, if_neg hk, findVal, if_neg hk]
        exact ih h

theorem findVal_subStepVal_ne {l : List (κ × Int)} {k k' : κ} (w : Int)
    (h : k' ≠ k) : findVal (subStepVal l k w) k' = findVal l k' := by
  induction l with
  | nil => rfl
  | cons kv rest ih =>
      rcases kv with ⟨k'', v''⟩
      by_cases hk : k = k''
      · subst hk
        rw [subStepVal, if_pos rfl, findVal, findVal, if_neg h, if_neg h]
      · rw [subStepVal, if_neg hk, findVal, findVal]
        by_cases hk2 : k' = k''
        · rw [if_pos hk2, if_pos hk2]
        · rw [if_neg hk2, if_neg hk2]
          exact ih

theorem findVal_append_ne {l : List (κ × Int)} {kv : κ × Int} {k' : κ}
    (h : k' ≠ kv.1) : findVal (l ++ [kv]) k' = findVal l k' := by
  induction l with
  | nil => simp [findVal, if_neg h]
  | cons p rest ih =>
      rcases p with ⟨k'', v''⟩
      by_cases hk : k' = k''
      · simp [findVal, if_pos hk]
      · simp only [List.cons_append, findVal, if_neg hk]
        exact ih

theorem findVal_append_self {l : List (κ × Int)} {kv : κ × Int}
    (h : findVal l kv.1 = none) : findVal (l ++ [kv]) kv.1 = some kv.2 := by
  induction l with
  | nil => simp [findVal]
  | cons p rest ih =>
      rcases p with ⟨k'', v''⟩
      by_cases hk : kv.1 = k''
      · rw [findVal, if_pos hk] at h
        cases h
      · rw [findVal, if_neg hk] at h
        simp only [List.cons_append, findVal, if_neg hk]
        exact ih h

theorem sumSnd_subStepVal {l : List (κ × Int)} {k : κ} {v : Int} (w : Int)
    (h : findVal l k = some v) :
    sumSnd (subStepVal l k w) = sumSnd l - v + |v - w| := by
  induction l with
  | nil => simp [findVal] at h
  | cons kv rest ih =>
      rcases kv with ⟨k', v'⟩
      by_cases hk : k = k'
      · rw [findVal, if_pos hk] at h
        rw [subStepVal, if_pos hk]
        have hv : v' = v := by simpa using h
        subst hv
        simp [sumSnd]
        ring
      · rw [findVal, if_neg hk] at h
        rw [subStepVal, if_neg hk]
        have := ih h
        simp only [sumSnd, List.map_cons, List.sum_cons] at this ⊢
        omega

theorem mem_keys_gndSubFold : ∀ (B : List (κ × Int)) (acc : List (κ × Int) × Int)
    (k' : κ), k' ∈ keysOf (gndSubFold acc B).1 ↔ k' ∈ keysOf acc.1 ∨ k' ∈ keysOf B
  | [], acc, k' => by simp [gndSubFold, keysOf]
  | kv :: rest, acc, k' => by
      have hstep : gndSubFold acc (kv :: rest)
          = gndSubFold (match findVal acc.1 kv.1 with
              | some v => (subStepVal acc.1 kv.1 kv.2, acc.2 - v + |v - kv.2|)
              | none => (acc.1 ++ [kv], acc.2 + kv.2)) rest := rfl
      rw [hstep]
      rcases hf : findVal acc.1 kv.1 with _ | v
      · simp only [hf]
        rw [mem_keys_gndSubFold rest _ k']
        have : keysOf (acc.1 ++ [kv]) = keysOf acc.1 ++ [kv.1] := by
          simp [keysOf]
        rw [this]
        simp only [keysOf, List.map_cons, List.mem_cons, List.mem_append,
          List.mem_singleton]
        tauto
      · simp only [hf]
        rw [mem_keys_gndSubFold rest _ k', keysOf_subStepVal]
        have hmem : kv.1 ∈ keysOf acc.1 := by
          by_contra hc
          rw [← findVal_eq_none] at hc
          rw [hf] at hc
          cases hc
        simp only [keysOf, List.map_cons, List.mem_cons]
        constructor
        · tauto
        · rintro (h | h | h)
          · exact Or.inl h
          · exact Or.inl (h ▸ hmem)
          · exact Or.inr h

theorem nodup_keys_gndSubFold : ∀ (B : List (κ × Int)) (acc : List (κ × Int) × Int),
    (keysOf acc.1).Nodup → (keysOf (gndSubFold acc B).1).Nodup
  | [], acc, h => h
  | kv :: rest, acc, h => by
      have hstep : gndSubFold acc (kv :: rest)
          = gndSubFold (match findVal acc.1 kv.1 with
              | some v => (subStepVal acc.1 kv.1 kv.2, acc.2 - v + |v - kv.2|)
              | none => (acc.1 ++ [kv], acc.2 + kv.2)) rest := rfl
      rw [hstep]
      rcases hf : findVal acc.1 kv.1 with _ | v
      · simp only [hf]
        refine nodup_keys_gndSubFold rest _ ?_
        have hnm : kv.1 ∉ keysOf acc.1 := findVal_eq_none.mp hf
        have : keysOf (acc.1 ++ [kv]) = keysOf acc.1 ++ [kv.1] := by simp [keysOf]
        rw [this]
        simp [List.nodup_append, h, hnm]
      · simp only [hf]
        refine nodup_keys_gndSubFold rest _ ?_
        rw [keysOf_subStepVal]
        exact h

theorem findVal_gndSubFold : ∀ (B : List (κ × Int)) (acc : List (κ × Int) × Int)
    (k' : κ), (keysOf B).Nodup →
    findVal (gndSubFold acc B).1 k' = combine (findVal acc.1 k') (findVal B k')
  | [], acc, k', _ => by
      show findVal acc.1 k' = combine (findVal acc.1 k') none
      rw [combine_none_right]
  | ⟨kb, vb⟩ :: rest, acc, k', hB => by
      have hstep : gndSubFold acc (⟨kb, vb⟩ :: rest)
          = gndSubFold (match findVal acc.1 kb with
              | some v => (subStepVal acc.1 kb vb, acc.2 - v + |v - vb|)
              | none => (acc.1 ++ [⟨kb, vb⟩], acc.2 + vb)) rest := rfl
      have hkB : keysOf (⟨kb, vb⟩ :: rest) = kb :: keysOf rest := rfl
      rw [hkB] at hB
      have hnm : kb ∉ keysOf rest := (List.nodup_cons.mp hB).1
      have hrest : (keysOf rest).Nodup := (List.nodup_cons.mp hB).2
      rw [hstep]
      by_cases hk : k' = kb
      · subst hk
        have hnone : findVal rest k' = none := findVal_eq_none.mpr hnm
        rcases hf : findVal acc.1 k' with _ | v
        · simp only [hf]
          rw [findVal_gndSubFold rest _ k' hrest, hnone, combine_none_right,
            @findVal_append_self κ _ acc.1 ⟨k', vb⟩ hf, findVal, if_pos rfl]
          rfl
        · simp only [hf]
          rw [findVal_gndSubFold rest _ k' hrest, hnone, combine_none_right,
            findVal_subStepVal_self vb hf, findVal, if_pos rfl]
          rfl
      · rcases hf : findVal acc.1 kb with _ | v
        · simp only [hf]
          rw [findVal_gndSubFold rest _ k' hrest,
            @findVal_append_ne κ _ acc.1 ⟨kb, vb⟩ k' hk,
            findVal, if_neg hk]
        · simp only [hf]
          rw [findVal_gndSubFold rest _ k' hrest, findVal_subStepVal_ne vb hk,
            findVal, if_neg hk]

theorem tot_gndSubFold : ∀ (B : List (κ × Int)) (acc : List (κ × Int) × Int),
    (gndSubFold acc B).2 - sumSnd (gndSubFold acc B).1 = acc.2 - sumSnd acc.1
  | [], acc => rfl
  | kv :: rest, acc => by
      have hstep : gndSubFold acc (kv :: rest)
          = gndSubFold (match findVal acc.1 kv.1 with
              | some v => (subStepVal acc.1 kv.1 kv.2, acc.2 - v + |v - kv.2|)
              | none => (acc.1 ++ [kv], acc.2 + kv.2)) rest := rfl
      rw [hstep]
      rcases hf : findVal acc.1 kv.1 with _ | v
      · simp only [hf]
        rw [tot_gndSubFold rest _]
        have : sumSnd (acc.1 ++ [kv]) = sumSnd acc.1 + kv.2 := by simp [sumSnd]
        rw [this]
        ring
      · simp only [hf]
        rw [tot_gndSubFold rest _, sumSnd_subStepVal kv.2 hf]
        ring

theorem eq_map_keys : ∀ (l : List (κ × Int)), (keysOf l).Nodup →
    l = (keysOf l).map (fun k => (k, (findVal l k).getD 0))
  | [], _ => rfl
  | (k, v) :: rest, h => by
      have hkeys : keysOf ((k, v) :: rest) = k :: keysOf rest := rfl
      rw [hkeys] at h ⊢
      have hnm : k ∉ keysOf rest := (List.nodup_cons.mp h).1
      have hrest : (keysOf rest).Nodup := (List.nodup_cons.mp h).2
      rw [List.map_cons]
      have hhead : (k, (findVal ((k, v) :: rest) k).getD 0) = (k, v) := by
        rw [findVal, if_pos rfl]
        rfl
      rw [hhead]
      have htail : (keysOf rest).map (fun k' => (k', (findVal ((k, v) :: rest) k').getD 0))
          = (keysOf rest).map (fun k' => (k', (findVal rest k').getD 0)) := by
        refine List.map_congr_left fun k' hk' => ?_
        have hne : k' ≠ k := fun hc => hnm (hc ▸ hk')
        rw [findVal, if_neg hne]
      rw [htail, ← eq_map_keys rest hrest]

/-- The two orders of `operator-=` produce permutations of each other. -/
theorem gndSubFold_comm_perm (A B : List (κ × Int)) (ta tb : Int)
    (hA : (keysOf A).Nodup) (hB : (keysOf B).Nodup) :
    (gndSubFold (A, ta) B).1.Perm (gndSubFold (B, tb) A).1 := by
  have hnd1 : (keysOf (gndSubFold (A, ta) B).1).Nodup := nodup_keys_gndSubFold B _ hA
  have hnd2 : (keysOf (gndSubFold (B, tb) A).1).Nodup := nodup_keys_gndSubFold A _ hB
  have hkeys : (keysOf (gndSubFold (A, ta) B).1).Perm (keysOf (gndSubFold (B, tb) A).1) := by
    rw [List.perm_ext_iff_of_nodup hnd1 hnd2]
    intro k
    rw [mem_keys_gndSubFold, mem_keys_gndSubFold]
    exact or_comm
  have hval : ∀ k, findVal (gndSubFold (A, ta) B).1 k = findVal (gndSubFold (B, tb) A).1 k := by
    intro k
    rw [findVal_gndSubFold B _ k hB, findVal_gndSubFold A _ k hA, combine_comm]
  have h1 := eq_map_keys _ hnd1
  have h2 := eq_map_keys _ hnd2
  rw [h1, h2]
  have h2' : (keysOf (gndSubFold (B, tb) A).1).map
        (fun k => (k, (findVal (gndSubFold (B, tb) A).1 k).getD 0))
      = (keysOf (gndSubFold (B, tb) A).1).map
        (fun k => (k, (findVal (gndSubFold (A, ta) B).1 k).getD 0)) := by
    refine List.map_congr_left fun k _ => ?_
    rw [hval k]
  rw [h2']
  exact hkeys.map _

theorem sortDesc_perm (l : List (κ × Int)) : (sortDesc l).Perm l :=
  List.perm_insertionSort descR l

theorem sortDesc_sorted (l : List (κ × Int)) : List.Sorted descR (sortDesc l) :=
  List.sorted_insertionSort descR l

/-- Two descending-sorted permutations of each other carry the same value
sequence. -/
theorem sorted_perm_map_snd_eq {l1 l2 : List (κ × Int)}
    (h1 : List.Sorted descR l1) (h2 : List.Sorted descR l2) (hp : l1.Perm l2) :
    l1.map Prod.snd = l2.map Prod.snd := by
  haveI inst : IsAntisymm Int (fun a b => b ≤ a) :=
    ⟨fun a b hab hba => le_antisymm hba hab⟩
  exact @List.eq_of_perm_of_sorted Int (fun a b => b ≤ a) inst _ _
    (hp.map Prod.snd) (List.pairwise_map.mpr h1) (List.pairwise_map.mpr h2)

/-- On a descending-sorted list, the strict prefix above a threshold equals
the filter above the threshold. -/
theorem takeWhile_eq_filter_of_sorted (p : κ × Int → Bool) :
    ∀ (l : List (κ × Int)), List.Sorted descR l →
    (∀ x y : κ × Int, descR x y → p x = false → p y = false) →
    l.takeWhile p = l.filter p
  | [], _, _ => rfl
  | a :: l, hs, hmono => by
      rcases List.pairwise_cons.mp hs with ⟨ha, htail⟩
      rcases hpa : p a with _ | _
      · rw [List.takeWhile_cons, List.filter_cons, hpa]
        simp only [Bool.false_eq_true, if_false, cond_false]
        symm
        rw [List.filter_eq_nil_iff]
        intro b hb
        rw [hmono a b (ha b hb) hpa]
        simp
      · rw [List.takeWhile_cons, List.filter_cons, hpa]
        simp only [cond_true, if_true]
        rw [takeWhile_eq_filter_of_sorted p l htail hmono]

/-- Claim C3 (counterexample): with `A = {k0 ↦ 5}` and `B = {k1 ↦ 5}` the
difference assigns 5 to both keys; TopK with threshold 1 keeps the key
contributed by the first argument, so `HC(A,B)` and `HC(B,A)` keep
different keys. -/
theorem heavyChanger_not_symm :
    hcTopK [((0 : Nat), (5 : Int))] 5 [(1, 5)] 1
      ≠ hcTopK [((1 : Nat), (5 : Int))] 5 [(0, 5)] 1 := by decide

/-- Claim C3 (amended): heavy-changer extraction is symmetric up to the
choice of keys among tied difference values.  For TopK the two orders
produce the same value sequence and the same total value (but, as the
counterexample shows, possibly different keys when distinct keys tie at
the cut); for Percentile the two orders produce the same set of
(key, value) pairs and the same total value. -/
theorem heavyChanger_symm (A B : List (κ × Int)) (ta tb : Int) (k : Nat)
    (thresOf : Int → Int) (hA : (keysOf A).Nodup) (hB : (keysOf B).Nodup)
    (hta : ta = sumSnd A) (htb : tb = sumSnd B) (hk : 1 ≤ k) :
    (hcTopK A ta B k).1.map Prod.snd = (hcTopK B tb A k).1.map Prod.snd
    ∧ (hcTopK A ta B k).2 = (hcTopK B tb A k).2
    ∧ (hcPercentile A ta B thresOf).1.Perm (hcPercentile B tb A thresOf).1
    ∧ (hcPercentile A ta B thresOf).2 = (hcPercentile B tb A thresOf).2 := by
  have hdperm : (gndSubFold (A, ta) B).1.Perm (gndSubFold (B, tb) A).1 :=
    gndSubFold_comm_perm A B ta tb hA hB
  have hperm : (sortDesc (gndSubFold (A, ta) B).1).Perm (sortDesc (gndSubFold (B, tb) A).1) :=
    ((sortDesc_perm _).trans hdperm).trans (sortDesc_perm _).symm
  have hmap : (sortDesc (gndSubFold (A, ta) B).1).map Prod.snd
      = (sortDesc (gndSubFold (B, tb) A).1).map Prod.snd :=
    sorted_perm_map_snd_eq (sortDesc_sorted _) (sortDesc_sorted _) hperm
  have hlen : (sortDesc (gndSubFold (A, ta) B).1).length
      = (sortDesc (gndSubFold (B, tb) A).1).length := hperm.length_eq
  have htot : (gndSubFold (A, ta) B).2 = (gndSubFold (B, tb) A).2 := by
    have e1 := tot_gndSubFold B (A, ta)
    have e2 := tot_gndSubFold A (B, tb)
    have hsum : sumSnd (gndSubFold (A, ta) B).1 = sumSnd (gndSubFold (B, tb) A).1 :=
      (hdperm.map Prod.snd).sum_eq
    simp only at e1 e2
    omega
  have hmaptake : ((sortDesc (gndSubFold (A, ta) B).1).take
        (min (sortDesc (gndSubFold (A, ta) B).1).length k)).map Prod.snd
      = ((sortDesc (gndSubFold (B, tb) A).1).take
        (min (sortDesc (gndSubFold (B, tb) A).1).length k)).map Prod.snd := by
    rw [List.map_take, List.map_take, hmap, hlen]
  have hpmono : ∀ (t : Int) (x y : κ × Int), descR x y →
      decide (thresOf t < x.2) = false → decide (thresOf t < y.2) = false := by
    intro t x y hxy hx
    simp only [decide_eq_false_iff_not, not_lt] at hx ⊢
    exact le_trans hxy hx
  have hkept : ((sortDesc (gndSubFold (A, ta) B).1).takeWhile
        (fun p => decide (thresOf (gndSubFold (A, ta) B).2 < p.2))).Perm
      ((sortDesc (gndSubFold (B, tb) A).1).takeWhile
        (fun p => decide (thresOf (gndSubFold (B, tb) A).2 < p.2))) := by
    rw [takeWhile_eq_filter_of_sorted _ _ (sortDesc_sorted _)
        (fun x y => hpmono (gndSubFold (A, ta) B).2 x y),
      takeWhile_eq_filter_of_sorted _ _ (sortDesc_sorted _)
        (fun x y => hpmono (gndSubFold (B, tb) A).2 x y),
      htot]
    exact hperm.filter _
  exact ⟨hmaptake, congrArg List.sum hmaptake, hkept, (hkept.map Prod.snd).sum_eq⟩

/-- Witness for C3 on `A = [(0,5),(1,3)]`, `B = [(1,1),(2,4)]` with
TopK threshold 1 and the Percentile threshold function `fun _ => 2`. -/
theorem heavyChanger_symm_witness :
    ((keysOf [((0 : Nat), (5 : Int)), (1, 3)]).Nodup
      ∧ (keysOf [((1 : Nat), (1 : Int)), (2, 4)]).Nodup
      ∧ (8 : Int) = sumSnd [((0 : Nat), (5 : Int)), (1, 3)]
      ∧ (5 : Int) = sumSnd [((1 : Nat), (1 : Int)), (2, 4)]
      ∧ 1 ≤ 1)
    ∧ ((hcTopK [((0 : Nat), (5 : Int)), (1, 3)] 8 [(1, 1), (2, 4)] 1).1.map Prod.snd
        = (hcTopK [((1 : Nat), (1 : Int)), (2, 4)] 5 [(0, 5), (1, 3)] 1).1.map Prod.snd
      ∧ (hcTopK [((0 : Nat), (5 : Int)), (1, 3)] 8 [(1, 1), (2, 4)] 1).2
        = (hcTopK [((1 : Nat), (1 : Int)), (2, 4)] 5 [(0, 5), (1, 3)] 1).2
      ∧ (hcPercentile [((0 : Nat), (5 : Int)), (1, 3)] 8 [(1, 1), (2, 4)] (fun _ => 2)).1.Perm
          (hcPercentile [((1 : Nat), (1 : Int)), (2, 4)] 5 [(0, 5), (1, 3)] (fun _ => 2)).1
      ∧ (hcPercentile [((0 : Nat), (5 : Int)), (1, 3)] 8 [(1, 1), (2, 4)] (fun _ => 2)).2
        = (hcPercentile [((1 : Nat), (1 : Int)), (2, 4)] 5 [(0, 5), (1, 3)] (fun _ => 2)).2) :=
  ⟨⟨by decide, by decide, by decide, by decide, by decide⟩,
   heavyChanger_symm [((0 : Nat), (5 : Int)), (1, 3)] [(1, 1), (2, 4)] 8 5 1
     (fun _ => 2) (by decide) (by decide) (by decide) (by decide) (by decide)⟩

end GndTruthThms

/-! ### Supporting lemmas for claim C1 -/

theorem updFn_apply_self {β : Type} (f : Nat → β) (i : Nat) : updFn f i (f i) = f := by
  funext j
  unfold updFn
  split
  · subst j
    rfl
  · rfl

theorem updFn_apply {β : Type} (f : Nat → β) (i : Nat) (b : β) (j : Nat) :
    updFn f i b j = if j = i then b else f j := rfl

theorem truncQ_intCast (n : Int) : truncQ ((n : Int) : ℚ) = n := by
  unfold truncQ
  split
  · exact Int.floor_intCast n
  · exact Int.ceil_intCast n

theorem dynAdd_zero_zero (tbits bits : Nat) (ht : 2 ≤ tbits) :
    dynAdd tbits bits 0 0 = some (0, 0) := by
  have hb : ¬ dynBound tbits < 0 := by
    unfold dynBound
    have : (0 : Int) < 2 ^ (tbits - 2) := by positivity
    omega
  rw [dynAdd, if_pos le_rfl, if_neg hb]
  norm_num

theorem dynAdd_carry_zero {tbits bits : Nat} {c u r : Int} (hc0 : 0 ≤ c)
    (hcw : c < 2 ^ bits) (h : dynAdd tbits bits c u = some (0, r)) :
    r = c + u ∧ 0 ≤ r ∧ r < 2 ^ bits := by
  have hpos : (0 : Int) < 2 ^ bits := by positivity
  rw [dynAdd] at h
  by_cases hu : 0 ≤ u
  · rw [if_pos hu] at h
    by_cases hb : dynBound tbits < u
    · rw [if_pos hb] at h
      cases h
    · rw [if_neg hb] at h
      have h' := Option.some.inj h
      have h1 : u / 2 ^ bits + (c + u % 2 ^ bits) / 2 ^ bits = 0 := congrArg Prod.fst h'
      have h2 : (c + u % 2 ^ bits) % 2 ^ bits = r := congrArg Prod.snd h'
      have m1 : 0 ≤ u % 2 ^ bits := Int.emod_nonneg u (ne_of_gt hpos)
      have m2 : u % 2 ^ bits < 2 ^ bits := Int.emod_lt_of_pos u hpos
      have d1 : 0 ≤ u / 2 ^ bits := Int.ediv_nonneg hu (le_of_lt hpos)
      have d2 : 0 ≤ (c + u % 2 ^ bits) / 2 ^ bits :=
        Int.ediv_nonneg (by omega) (le_of_lt hpos)
      have hq1 : u / 2 ^ bits = 0 := by omega
      have hq2 : (c + u % 2 ^ bits) / 2 ^ bits = 0 := by omega
      have e1 : 2 ^ bits * (u / 2 ^ bits) + u % 2 ^ bits = u := Int.ediv_add_emod u (2 ^ bits)
      have e2 : 2 ^ bits * ((c + u % 2 ^ bits) / 2 ^ bits) + (c + u % 2 ^ bits) % 2 ^ bits
          = c + u % 2 ^ bits := Int.ediv_add_emod _ (2 ^ bits)
      rw [hq1] at e1
      rw [hq2] at e2
      simp only [mul_zero, zero_add] at e1 e2
      omega
  · rw [if_neg hu] at h
    by_cases hb : u < -dynBound tbits
    · rw [if_pos hb] at h
      cases h
    · rw [if_neg hb] at h
      have h' := Option.some.inj h
      have h1 : -((-u) / 2 ^ bits + 1 - (2 ^ bits + c - (-u) % 2 ^ bits) / 2 ^ bits) = 0 :=
        congrArg Prod.fst h'
      have h2 : (2 ^ bits + c - (-u) % 2 ^ bits) % 2 ^ bits = r := congrArg Prod.snd h'
      have m1 : 0 ≤ (-u) % 2 ^ bits := Int.emod_nonneg (-u) (ne_of_gt hpos)
      have m2 : (-u) % 2 ^ bits < 2 ^ bits := Int.emod_lt_of_pos (-u) hpos
      have d1 : 0 ≤ (-u) / 2 ^ bits := Int.ediv_nonneg (by omega) (le_of_lt hpos)
      have dlt : (2 ^ bits + c - (-u) % 2 ^ bits) / 2 ^ bits < 2 :=
        (Int.ediv_lt_iff_lt_mul hpos).mpr (by omega)
      have hq2 : (2 ^ bits + c - (-u) % 2 ^ bits) / 2 ^ bits = 1 := by omega
      have hq1 : (-u) / 2 ^ bits = 0 := by omega
      have e1 : 2 ^ bits * ((-u) / 2 ^ bits) + (-u) % 2 ^ bits = -u :=
        Int.ediv_add_emod (-u) (2 ^ bits)
      have e2 : 2 ^ bits * ((2 ^ bits + c - (-u) % 2 ^ bits) / 2 ^ bits)
            + (2 ^ bits + c - (-u) % 2 ^ bits) % 2 ^ bits
          = 2 ^ bits + c - (-u) % 2 ^ bits := Int.ediv_add_emod _ (2 ^ bits)
      rw [hq1] at e1
      rw [hq2] at e2
      simp only [mul_zero, zero_add, mul_one] at e1 e2
      omega

/-- A layer whose counters are all zero absorbs an all-zero update map
without any change and without carries. -/
theorem updateLayer_zero (cfg : CHCfg) (layer : Nat) (cntL : Nat → Int)
    (statusL : Nat → Bool) (hz : ∀ j, cntL j = 0) (ht : 2 ≤ cfg.tbits) :
    updateLayer cfg layer cntL statusL (fun _ => 0)
      = some (cntL, statusL, fun _ => 0) := by
  unfold updateLayer
  generalize List.range (cfg.m layer) = L
  induction L with
  | nil => rfl
  | cons idx L ih =>
      rw [List.foldl_cons]
      have hstep : updateLayerStep cfg layer (fun _ => 0) (some (cntL, statusL, fun _ => 0)) idx
          = some (cntL, statusL, fun _ => 0) := by
        unfold updateLayerStep
        dsimp only
        have hd : dynAdd cfg.tbits (cfg.w layer) (cntL idx) 0 = some (0, 0) := by
          rw [hz idx]
          exact dynAdd_zero_zero cfg.tbits (cfg.w layer) ht
        rw [hd]
        have hupd : updFn cntL idx 0 = cntL := by
          rw [← hz idx]
          exact updFn_apply_self cntL idx
        simp [hupd]
      rw [hstep]
      exact ih

/-- A carry-free batch of updates to one layer adds each delta into its
counter and propagates nothing: no status bit is set, and the next layer's
map is all zero. -/
theorem updateLayerFold_carryfree (cfg : CHCfg) (layer : Nat) (u : Nat → Int) :
    ∀ (L : List Nat) (c : Nat → Int) (s : Nat → Bool), L.Nodup →
    (∀ idx ∈ L, dynAdd cfg.tbits (cfg.w layer) (c idx) (u idx) = some (0, c idx + u idx)) →
    L.foldl (updateLayerStep cfg layer u) (some (c, s, fun _ => 0))
      = some ((fun j => if j ∈ L then c j + u j else c j), s, fun _ => 0)
  | [], c, s, _, _ => by simp
  | idx :: L, c, s, hnd, hd => by
      rw [List.foldl_cons]
      have hstep : updateLayerStep cfg layer u (some (c, s, fun _ => 0)) idx
          = some (updFn c idx (c idx + u idx), s, fun _ => 0) := by
        unfold updateLayerStep
        dsimp only
        rw [hd idx (by simp)]
        simp
      rw [hstep]
      have hni : idx ∉ L := (List.nodup_cons.mp hnd).1
      have hndL : L.Nodup := (List.nodup_cons.mp hnd).2
      have hd' : ∀ j ∈ L,
          dynAdd cfg.tbits (cfg.w layer) (updFn c idx (c idx + u idx) j) (u j)
            = some (0, updFn c idx (c idx + u idx) j + u j) := by
        intro j hj
        have hne : j ≠ idx := fun hc => hni (hc ▸ hj)
        rw [updFn_apply, if_neg hne]
        exact hd j (by simp [hj])
      rw [updateLayerFold_carryfree cfg layer u L _ s hndL hd']
      have hfun : (fun j => if j ∈ L then updFn c idx (c idx + u idx) j + u j
            else updFn c idx (c idx + u idx) j)
          = fun j => if j ∈ idx :: L then c j + u j else c j := by
        funext j
        rw [updFn_apply]
        by_cases hjL : j ∈ L
        · have hne : j ≠ idx := fun hc => hni (hc ▸ hjL)
          rw [if_pos hjL, if_neg hne, if_pos (by simp [hjL])]
        · by_cases hji : j = idx
          · subst hji
            rw [if_neg hjL, if_pos rfl, if_pos (by simp)]
          · rw [if_neg hjL, if_neg hji, if_neg (by simp [hjL, hji])]
      rw [hfun]

/-- Layers whose counters are all zero pass an all-zero carry map through
the flush unchanged. -/
theorem flushFold_upper (cfg : CHCfg) (ht : 2 ≤ cfg.tbits) :
    ∀ (L : List Nat) (cnt : Nat → Nat → Int) (status : Nat → Nat → Bool),
    (∀ l ∈ L, ∀ j, cnt l j = 0) →
    L.foldl (flushStep cfg) (some (cnt, status, fun _ => 0))
      = some (cnt, status, fun _ => 0)
  | [], _, _, _ => rfl
  | l :: L, cnt, status, hz => by
      rw [List.foldl_cons]
      have hstep : flushStep cfg (some (cnt, status, fun _ => 0)) l
          = some (cnt, status, fun _ => 0) := by
        unfold flushStep
        dsimp only
        rw [updateLayer_zero cfg l (cnt l) (status l) (fun j => hz l (by simp) j) ht]
        dsimp only
        rw [updFn_apply_self, updFn_apply_self]
      rw [hstep]
      exact flushFold_upper cfg ht L cnt status (fun l' hl' => hz l' (by simp [hl']))

/-- Under the invariant, a carry-free flush adds the pending deltas into
the layer-0 counters — making them equal to the shadow array — and leaves
everything else unchanged. -/
theorem flushCH_carryfree (cfg : CHCfg) (st : CHState) (hOk : cfg.Ok)
    (hInv : chInv cfg st) (hok : l0FlushOk cfg st = true) :
    flushCH cfg st = some { st with
      cnt := updFn st.cnt 0 st.original,
      lazy := fun _ => 0, lazyNonempty := false }
    ∧ (∀ i, 0 ≤ st.original i ∧ st.original i < 2 ^ cfg.w 0) := by
  obtain ⟨hn, _, _, _, _, _, _, _, ht8⟩ := hOk
  have ht : 2 ≤ cfg.tbits := by omega
  obtain ⟨inv1, inv2, inv3, inv4, inv5, inv6⟩ := hInv
  have hall := List.all_eq_true.mp hok
  have hd : ∀ i ∈ List.range (cfg.m 0),
      dynAdd cfg.tbits (cfg.w 0) (st.cnt 0 i) (st.lazy i)
        = some (0, st.cnt 0 i + st.lazy i) := by
    intro i hi
    have hb := hall i hi
    rcases hmatch : dynAdd cfg.tbits (cfg.w 0) (st.cnt 0 i) (st.lazy i) with _ | p
    · rw [hmatch] at hb
      cases hb
    · rw [hmatch] at hb
      have hp1 : p.1 = 0 := by
        have : (p.1 == 0) = true := hb
        exact beq_iff_eq.mp this
      have hmatch' : dynAdd cfg.tbits (cfg.w 0) (st.cnt 0 i) (st.lazy i) = some (0, p.2) := by
        rw [hmatch, ← hp1]
      have hz := dynAdd_carry_zero (inv2 i).1 (inv2 i).2 hmatch'
      rw [← hz.1, ← hp1]
  have hbounds : ∀ i, 0 ≤ st.original i ∧ st.original i < 2 ^ cfg.w 0 := by
    intro i
    by_cases hi : i < cfg.m 0
    · have hdi := hd i (List.mem_range.mpr hi)
      have hz := dynAdd_carry_zero (inv2 i).1 (inv2 i).2 hdi
      rw [inv1 i hi]
      exact ⟨hz.2.1, hz.2.2⟩
    · rcases inv3 i hi with ⟨_, _, h0⟩
      rw [h0]
      refine ⟨le_refl 0, by positivity⟩
  have hrow : (fun j => if j ∈ List.range (cfg.m 0) then st.cnt 0 j + st.lazy j
        else st.cnt 0 j) = st.original := by
    funext j
    by_cases hj : j < cfg.m 0
    · rw [if_pos (List.mem_range.mpr hj)]
      exact (inv1 j hj).symm
    · rw [if_neg (fun hc => hj (List.mem_range.mp hc))]
      rcases inv3 j hj with ⟨hc0, _, ho0⟩
      rw [hc0, ho0]
  have h0 : updateLayer cfg 0 (st.cnt 0) (st.status 0) st.lazy
      = some (st.original, st.status 0, fun _ => 0) := by
    rw [← hrow]
    exact updateLayerFold_carryfree cfg 0 st.lazy (List.range (cfg.m 0))
      (st.cnt 0) (st.status 0) (List.nodup_range _) hd
  obtain ⟨nl, hnl⟩ : ∃ nl, cfg.nLayer = nl + 1 := ⟨cfg.nLayer - 1, by
    have : 0 < cfg.nLayer := hn
    omega⟩
  have hfold : (List.range cfg.nLayer).foldl (flushStep cfg)
      (some (st.cnt, st.status, st.lazy))
      = some (updFn st.cnt 0 st.original, st.status, fun _ => 0) := by
    rw [hnl, List.range_succ_eq_map, List.foldl_cons]
    have hstep0 : flushStep cfg (some (st.cnt, st.status, st.lazy)) 0
        = some (updFn st.cnt 0 st.original, st.status, fun _ => 0) := by
      unfold flushStep
      dsimp only
      rw [h0]
      dsimp only
      rw [updFn_apply_self]
    rw [hstep0]
    refine flushFold_upper cfg ht _ _ _ ?_
    intro l hl j
    have hl1 : 1 ≤ l := by
      rcases List.mem_map.mp hl with ⟨k, _, hk⟩
      omega
    rw [updFn_apply]
    rw [if_neg (by omega)]
    exact inv4 l hl1 j
  rw [flushCH, hfold]
  exact ⟨rfl, hbounds⟩

/-- With no status bit set, decoding a layer ignores the higher layer and
returns the residues. -/
theorem decodeLayer_no_status (cfg : CHCfg)
    (solve : List (Nat × Nat) → (Nat → ℚ) → Nat → ℚ) (cnt : Nat → Nat → Int)
    (status : Nat → Nat → Bool) (layer : Nat) (higher : Nat → ℚ)
    (hst : ∀ i, status layer i = false) :
    decodeLayer cfg solve cnt status layer higher
      = fun i => ((cnt layer i : Int) : ℚ) := by
  funext i
  unfold decodeLayer
  rw [hst i]
  simp

/-- With no status bit set anywhere, the decode loop ends at the layer-0
residues whatever it starts from. -/
theorem decodeFold_no_status (cfg : CHCfg)
    (solve : List (Nat × Nat) → (Nat → ℚ) → Nat → ℚ) (cnt : Nat → Nat → Int)
    (status : Nat → Nat → Bool) (hst : ∀ l i, status l i = false) :
    ∀ (k : Nat) (init : Nat → ℚ),
    (List.range (k + 1)).reverse.foldl
      (fun higher layer => decodeLayer cfg solve cnt status layer higher) init
    = fun i => ((cnt 0 i : Int) : ℚ)
  | 0, init => decodeLayer_no_status cfg solve cnt status 0 init (fun i => hst 0 i)
  | k + 1, init => by
      have hrev : (List.range (k + 2)).reverse
          = (k + 1) :: (List.range (k + 1)).reverse := by
        rw [List.range_succ, List.reverse_append]
        rfl
      rw [hrev, List.foldl_cons]
      exact decodeFold_no_status cfg solve cnt status hst k _

/-- With no status bit set anywhere, `decodeCH` returns the layer-0
residues. -/
theorem decodeCH_no_status (cfg : CHCfg)
    (solve : List (Nat × Nat) → (Nat → ℚ) → Nat → ℚ) (cnt : Nat → Nat → Int)
    (status : Nat → Nat → Bool) (hst : ∀ l i, status l i = false)
    (hn : 1 ≤ cfg.nLayer) :
    decodeCH cfg solve cnt status = fun i => ((cnt 0 i : Int) : ℚ) := by
  unfold decodeCH
  obtain ⟨nl, hnl⟩ : ∃ nl, cfg.nLayer = nl + 1 := ⟨cfg.nLayer - 1, by omega⟩
  rw [hnl]
  simp only [Nat.add_sub_cancel]
  cases nl with
  | zero => rfl
  | succ k => exact decodeFold_no_status cfg solve cnt status hst k _

theorem chInv_init (cfg : CHCfg) : chInv cfg chInit := by
  refine ⟨fun i _ => by simp [chInit], fun i => ?_, fun i _ => by simp [chInit],
    fun l _ j => rfl, fun l j => rfl, fun _ => ⟨fun i => rfl, fun i _ => ?_⟩⟩
  · constructor
    · exact le_refl 0
    · positivity
  · show truncQ ((0 : ℚ)) = 0
    have : ((0 : Int) : ℚ) = (0 : ℚ) := by norm_num
    rw [← this, truncQ_intCast]

/-- Under the invariant, a read whose flush (if any) is carry-free returns
the shadow value, preserves the invariant, and leaves the shadow array
unchanged. -/
theorem chGetCnt_carryfree (cfg : CHCfg)
    (solve : List (Nat × Nat) → (Nat → ℚ) → Nat → ℚ) (st : CHState) (index : Nat)
    (hOk : cfg.Ok) (hInv : chInv cfg st)
    (hok : st.lazyNonempty = true → l0FlushOk cfg st = true)
    (hidx : index < cfg.m 0) :
    ∃ st2, chGetCnt cfg solve st index = some (st.original index, st2)
      ∧ chInv cfg st2 ∧ st2.original = st.original := by
  have hnidx : ¬ cfg.m 0 ≤ index := by omega
  have hn1 : 1 ≤ cfg.nLayer := hOk.1
  cases hlz : st.lazyNonempty with
  | false =>
      obtain ⟨hlz0, hdec⟩ := hInv.2.2.2.2.2 hlz
      refine ⟨st, ?_, hInv, rfl⟩
      rw [chGetCnt, if_neg hnidx, hlz]
      simp only [Bool.false_eq_true, if_false]
      rw [hdec index hidx]
  | true =>
      obtain ⟨hflush, hbounds⟩ := flushCH_carryfree cfg st hOk hInv (hok hlz)
      have hDec : decodeCH cfg solve (updFn st.cnt 0 st.original) st.status
          = fun i => ((st.original i : Int) : ℚ) :=
        decodeCH_no_status cfg solve _ st.status hInv.2.2.2.2.1 hn1
      rw [chGetCnt, if_neg hnidx, hlz]
      simp only [if_true]
      rw [hflush]
      dsimp only
      rw [hDec]
      refine ⟨{ st with cnt := updFn st.cnt 0 st.original, decoded := fun i => ((st.original i : Int) : ℚ), lazy := fun _ => 0, lazyNonempty := false }, ?_, ?_, ?_⟩
      · show some (truncQ ((st.original index : Int) : ℚ), _) = _
        rw [truncQ_intCast]
      · refine ⟨fun i hi => ?_, fun i => ?_, fun i hi => ?_, fun l hl j => ?_,
          fun l j => hInv.2.2.2.2.1 l j, fun _ => ⟨fun i => rfl, fun i hi => ?_⟩⟩
        · show st.original i = updFn st.cnt 0 st.original 0 i + 0
          rw [updFn_apply, if_pos rfl, add_zero]
        · show 0 ≤ updFn st.cnt 0 st.original 0 i ∧ _
          rw [updFn_apply, if_pos rfl]
          exact hbounds i
        · rcases hInv.2.2.1 i hi with ⟨_, _, ho⟩
          refine ⟨?_, rfl, ho⟩
          show updFn st.cnt 0 st.original 0 i = 0
          rw [updFn_apply, if_pos rfl]
          exact ho
        · show updFn st.cnt 0 st.original l j = 0
          rw [updFn_apply, if_neg (by omega)]
          exact hInv.2.2.2.1 l hl j
        · show truncQ ((st.original i : Int) : ℚ) = st.original i
          exact truncQ_intCast _
      · rfl

/-- `updateCnt` preserves the invariant and adds the delta to the shadow. -/
theorem chUpdateCnt_inv (cfg : CHCfg) (st : CHState) (index : Nat) (val : Int)
    (st1 : CHState) (hInv : chInv cfg st)
    (h : chUpdateCnt cfg st index val = some st1) :
    chInv cfg st1
    ∧ ∀ j, st1.original j = st.original j + (if index = j then val else 0) := by
  rw [chUpdateCnt] at h
  by_cases hi : cfg.m 0 ≤ index
  · rw [if_pos hi] at h
    cases h
  · rw [if_neg hi] at h
    have h' := Option.some.inj h
    subst h'
    obtain ⟨inv1, inv2, inv3, inv4, inv5, inv6⟩ := hInv
    constructor
    · refine ⟨fun j hj => ?_, inv2, fun j hj => ?_, inv4, inv5, fun hc => by cases hc⟩
      · show updFn st.original index (st.original index + val) j
            = st.cnt 0 j + updFn st.lazy index (st.lazy index + val) j
        rw [updFn_apply, updFn_apply]
        by_cases hji : j = index
        · rw [if_pos hji, if_pos hji, hji]
          rw [inv1 index (by omega)]
          ring
        · rw [if_neg hji, if_neg hji]
          exact inv1 j hj
      · rcases inv3 j hj with ⟨hc, hl, ho⟩
        have hji : j ≠ index := by omega
        refine ⟨hc, ?_, ?_⟩
        · show updFn st.lazy index (st.lazy index + val) j = 0
          rw [updFn_apply, if_neg hji]
          exact hl
        · show updFn st.original index (st.original index + val) j = 0
          rw [updFn_apply, if_neg hji]
          exact ho
    · intro j
      show updFn st.original index (st.original index + val) j = _
      rw [updFn_apply]
      by_cases hji : j = index
      · rw [if_pos hji, if_pos (by omega)]
        rw [hji]
      · rw [if_neg hji, if_neg (by omega), add_zero]

/-- A carry-free trace runs to completion, keeps the invariant, and
accumulates the plain per-index sums in the shadow array. -/
theorem chRun_carryfree (cfg : CHCfg)
    (solve : List (Nat × Nat) → (Nat → ℚ) → Nat → ℚ) :
    ∀ (ops : List CHOp) (st : CHState), cfg.Ok → chInv cfg st →
    chL0CarryFree cfg solve st ops = true →
    ∃ st', chRun cfg solve st ops = some st' ∧ chInv cfg st'
      ∧ ∀ i, st'.original i = st.original i + updSum i ops
  | [], st, _, hInv, _ => ⟨st, rfl, hInv, fun i => by rw [updSum, add_zero]⟩
  | CHOp.update i v :: rest, st, hOk, hInv, hfree => by
      rw [chL0CarryFree] at hfree
      rcases hupd : chUpdateCnt cfg st i v with _ | st1
      · rw [hupd] at hfree
        exact Bool.noConfusion hfree
      · rw [hupd] at hfree
        obtain ⟨hinv1, horig⟩ := chUpdateCnt_inv cfg st i v st1 hInv hupd
        obtain ⟨st', hrun, hinv', hsum⟩ := chRun_carryfree cfg solve rest st1 hOk hinv1 hfree
        refine ⟨st', ?_, hinv', fun j => ?_⟩
        · rw [chRun, show chStep cfg solve st (CHOp.update i v) = some st1 from hupd]
          exact hrun
        · rw [hsum j, horig j, updSum]
          ring
  | CHOp.read i :: rest, st, hOk, hInv, hfree => by
      rw [chL0CarryFree, Bool.and_eq_true] at hfree
      obtain ⟨h1, h2⟩ := hfree
      rcases hstep : chStep cfg solve st (CHOp.read i) with _ | st1
      · rw [hstep] at h2
        exact Bool.noConfusion h2
      · rw [hstep] at h2
        have hokz : st.lazyNonempty = true → l0FlushOk cfg st = true := by
          intro h
          rw [h] at h1
          simpa using h1
        have hidx : i < cfg.m 0 := by
          by_contra hc
          have hnone : chStep cfg solve st (CHOp.read i) = none := by
            show (chGetCnt cfg solve st i).map Prod.snd = none
            rw [chGetCnt, if_pos (by omega)]
            rfl
          rw [hnone] at hstep
          cases hstep
        obtain ⟨st2, hgc, hinv2, horig2⟩ :=
          chGetCnt_carryfree cfg solve st i hOk hInv hokz hidx
        have hst12 : st1 = st2 := by
          have hx : chStep cfg solve st (CHOp.read i) = some st2 := by
            show (chGetCnt cfg solve st i).map Prod.snd = some st2
            rw [hgc]
            rfl
          rw [hstep] at hx
          exact Option.some.inj hx
        subst hst12
        obtain ⟨st', hrun, hinv', hsum⟩ := chRun_carryfree cfg solve rest st1 hOk hinv2 h2
        refine ⟨st', ?_, hinv', fun j => ?_⟩
        · rw [chRun, hstep]
          exact hrun
        · rw [hsum j, updSum]
          rw [show st1.original j = st.original j from congrFun horig2 j]

/-- The carry-free property of a trace extends to every prefix. -/
theorem chL0CarryFree_of_append (cfg : CHCfg)
    (solve : List (Nat × Nat) → (Nat → ℚ) → Nat → ℚ) :
    ∀ (l1 l2 : List CHOp) (st : CHState),
    chL0CarryFree cfg solve st (l1 ++ l2) = true →
    chL0CarryFree cfg solve st l1 = true
  | [], _, _, _ => rfl
  | CHOp.update i v :: l1, l2, st, h => by
      rw [List.cons_append, chL0CarryFree] at h
      rw [chL0CarryFree]
      rcases hupd : chUpdateCnt cfg st i v with _ | st1
      · rw [hupd] at h
        exact Bool.noConfusion h
      · rw [hupd] at h
        exact chL0CarryFree_of_append cfg solve l1 l2 st1 h
  | CHOp.read i :: l1, l2, st, h => by
      rw [List.cons_append, chL0CarryFree, Bool.and_eq_true] at h
      rw [chL0CarryFree, Bool.and_eq_true]
      obtain ⟨h1, h2⟩ := h
      refine ⟨h1, ?_⟩
      rcases hstep : chStep cfg solve st (CHOp.read i) with _ | st1
      · rw [hstep] at h2
        exact Bool.noConfusion h2
      · rw [hstep] at h2
        exact chL0CarryFree_of_append cfg solve l1 l2 st1 h2

/-- The carry-free property of a trace carries over to the suffix after
running the prefix. -/
theorem chL0CarryFree_append (cfg : CHCfg)
    (solve : List (Nat × Nat) → (Nat → ℚ) → Nat → ℚ) :
    ∀ (l1 l2 : List CHOp) (st : CHState),
    chL0CarryFree cfg solve st (l1 ++ l2) = true →
    ∀ st', chRun cfg solve st l1 = some st' →
    chL0CarryFree cfg solve st' l2 = true
  | [], l2, st, h, st', hrun => by
      have : st = st' := Option.some.inj hrun
      subst this
      exact h
  | CHOp.update i v :: l1, l2, st, h, st', hrun => by
      rw [List.cons_append, chL0CarryFree] at h
      rcases hupd : chUpdateCnt cfg st i v with _ | st1
      · rw [hupd] at h
        exact Bool.noConfusion h
      · rw [hupd] at h
        rw [chRun, show chStep cfg solve st (CHOp.update i v) = some st1 from hupd] at hrun
        exact chL0CarryFree_append cfg solve l1 l2 st1 h st' hrun
  | CHOp.read i :: l1, l2, st, h, st', hrun => by
      rw [List.cons_append, chL0CarryFree, Bool.and_eq_true] at h
      obtain ⟨h1, h2⟩ := h
      rcases hstep : chStep cfg solve st (CHOp.read i) with _ | st1
      · rw [hstep] at h2
        exact Bool.noConfusion h2
      · rw [hstep] at h2
        rw [chRun, hstep] at hrun
        exact chL0CarryFree_append cfg solve l1 l2 st1 h2 st' hrun

/-- Claim C1: for every counter hierarchy, every solver, and every trace of
`updateCnt` and `getCnt` calls in which no layer-0 counter ever produces a
nonzero carry out of its `w_0`-bit residue at any flush (including the
final read's flush), `getCnt(i)` returns exactly the shadow value
`getOriginalCnt(i)` — the plain sum of all updates to index `i`. -/
theorem ch_read_returns_shadow (cfg : CHCfg)
    (solve : List (Nat × Nat) → (Nat → ℚ) → Nat → ℚ) (ops : List CHOp)
    (index : Nat) (hOk : cfg.Ok)
    (hfree : chL0CarryFree cfg solve chInit (ops ++ [CHOp.read index]) = true) :
    ∃ st v st2, chRun cfg solve chInit ops = some st
      ∧ chGetCnt cfg solve st index = some (v, st2)
      ∧ v = st.original index
      ∧ st.original index = updSum index ops := by
  have hfree1 := chL0CarryFree_of_append cfg solve ops [CHOp.read index] chInit hfree
  obtain ⟨st, hrun, hinv, hsum⟩ :=
    chRun_carryfree cfg solve ops chInit hOk (chInv_init cfg) hfree1
  have hfree2 := chL0CarryFree_append cfg solve ops [CHOp.read index] chInit hfree st hrun
  rw [chL0CarryFree, Bool.and_eq_true] at hfree2
  obtain ⟨h1, h2⟩ := hfree2
  have hokz : st.lazyNonempty = true → l0FlushOk cfg st = true := by
    intro h
    rw [h] at h1
    simpa using h1
  have hidx : index < cfg.m 0 := by
    by_contra hc
    have hnone : chStep cfg solve st (CHOp.read index) = none := by
      show (chGetCnt cfg solve st index).map Prod.snd = none
      rw [chGetCnt, if_pos (by omega)]
      rfl
    rw [hnone] at h2
    exact Bool.noConfusion h2
  obtain ⟨st2, hgc, _, _⟩ := chGetCnt_carryfree cfg solve st index hOk hinv hokz hidx
  refine ⟨st, st.original index, st2, hrun, hgc, rfl, ?_⟩
  have h0 := hsum index
  rw [show chInit.original index = 0 from rfl, zero_add] at h0
  exact h0

/-- Witness for C1: on `cfgW` the trace `opsW` followed by `read 0` is
carry-free, and the final read returns the shadow value `5 + 3 = 8`. -/
theorem ch_read_returns_shadow_witness :
    (cfgW.Ok ∧ chL0CarryFree cfgW solveW chInit (opsW ++ [CHOp.read 0]) = true)
    ∧ (∃ st v st2, chRun cfgW solveW chInit opsW = some st
        ∧ chGetCnt cfgW solveW st 0 = some (v, st2)
        ∧ v = st.original 0
        ∧ st.original 0 = updSum 0 opsW) :=
  ⟨⟨by decide, by decide⟩,
   ch_read_returns_shadow cfgW solveW opsW 0 (by decide) (by decide)⟩

end OmniSketch
